import Mathlib

/-!
# Verification of the utreexo bridge-node core

A shallow embedding, in Lean 4, of the accumulator forest engine
(`src/bridgenode/server.go`, including the `accumulator` part of that file
and `src/accumulator/forestdata.go`) and of the proof/TTL flat-file writer
(`src/unnamed/part_000`), together with theorems settling the frozen claims
about the natural-language specification.

Conventions of the embedding:
* machine integers are `Nat` (with explicit `% 2 ^ 64` / `% 2 ^ 32` where Go
  overflow or wraparound is observable) or `Int` where Go uses signed values;
* files are `List Nat` of byte values; hashes are modelled abstractly (see
  `Hash` below);
* fallible code returns `Res α := Except GoErr α`, where `GoErr.goError`
  models a returned Go `error` and `GoErr.crash` models a Go runtime panic
  (out-of-range slice index, explicit `panic`, ...).
-/

namespace Utreexo

/-- Outcome of a Go code path that does not produce a value: either a Go
`error` value returned to the caller, or a runtime panic. -/
inductive GoErr where
  | goError : String → GoErr
  | crash : String → GoErr
deriving DecidableEq, Repr

/-- Result of running a piece of fallible Go code. -/
abbrev Res (α : Type) := Except GoErr α

/-- `true` iff the result is an error (of either kind). -/
def resIsError {α : Type} : Res α → Bool
  | .error _ => true
  | .ok _ => false

@[simp] theorem resIsError_error {α : Type} (e : GoErr) :
    resIsError (α := α) (.error e) = true := rfl

@[simp] theorem resIsError_ok {α : Type} (a : α) :
    resIsError (α := α) (.ok a) = false := rfl

@[simp] theorem resBindOk {α β : Type} (a : α) (g : α → Res β) :
    (Except.ok a : Res α) >>= g = g a := rfl

@[simp] theorem resBindError {α β : Type} (e : GoErr) (g : α → Res β) :
    (Except.error e : Res α) >>= g = Except.error e := rfl

/-! ## Big-endian byte serialization (`encoding/binary`, big-endian) -/

/-- The 4 bytes of `n` as a big-endian `uint32` (`binary.Write` of a
`uint32`). -/
def be32 (n : ℕ) : List ℕ :=
  [n / 16777216 % 256, n / 65536 % 256, n / 256 % 256, n % 256]

/-- The 8 bytes of `n` as a big-endian `uint64`/`int64` (`binary.Write` of a
`uint64` or of a nonnegative `int64`). -/
def be64 (n : ℕ) : List ℕ :=
  [n / 72057594037927936 % 256, n / 281474976710656 % 256,
   n / 1099511627776 % 256, n / 4294967296 % 256,
   n / 16777216 % 256, n / 65536 % 256, n / 256 % 256, n % 256]

/-- The unsigned value of a big-endian byte string (`binary.Read`). -/
def beVal (bs : List ℕ) : ℕ :=
  bs.foldl (fun a b => a * 256 + b) 0

/-- The 4 bytes of the `int32` value `z` in big-endian two's complement
(`binary.Write` of an `int32`). -/
def be32i (z : ℤ) : List ℕ :=
  be32 (z.emod 4294967296).toNat

theorem beVal_be64 (n : ℕ) : beVal (be64 n) = n % 2 ^ 64 := by
  simp only [be64, beVal, List.foldl]
  omega

theorem beVal_be32 (n : ℕ) : beVal (be32 n) = n % 2 ^ 32 := by
  simp only [be32, beVal, List.foldl]
  omega

/-! ## The proof/TTL flat-file writer (`src/unnamed/part_000`)

The proof file and the offset file are byte lists.  Both file handles in
`flatFileBlockWorker` are opened with `os.O_APPEND` (and so is the proof
file handle in `flatFileTTLWorker`), so under POSIX semantics every write
through them goes to the current end of file regardless of any preceding
`Seek`; `Seek` only moves the read offset.  The embedding reflects that. -/

/-- State of the proof append stream (`flatFileBlockWorker`): the two files,
the running proof-file offset `curOffset` and the height counter
`proofWriteHeight`. -/
structure FlatFileState where
  proofFile : List ℕ
  offsetFile : List ℕ
  curOffset : ℕ
  proofWriteHeight : ℕ
deriving DecidableEq, Repr

/-- One iteration of the main loop of `flatFileBlockWorker`
(src/unnamed/part_000 lines 110-141) on an incoming proof payload `pbytes`:
append the 8-byte big-endian `curOffset` to the offset file (the preceding
`Seek(8*proofWriteHeight)` is ignored for writes because the file is opened
with `O_APPEND`), append the 4-byte big-endian `uint32(len(pbytes))` and the
payload to the proof file, advance `curOffset` by `written + 4` and the
height by one.  Returns the new state and the offset value sent on
`offsetChan`. -/
def flatFileBlockWorkerStep (st : FlatFileState) (pbytes : List ℕ) :
    FlatFileState × ℕ :=
  let offsetFile' := st.offsetFile ++ be64 st.curOffset
  let proofFile' := st.proofFile ++ be32 (pbytes.length % 2 ^ 32) ++ pbytes
  let curOffset' := st.curOffset + pbytes.length + 4
  ({ proofFile := proofFile', offsetFile := offsetFile',
     curOffset := curOffset', proofWriteHeight := st.proofWriteHeight + 1 },
   curOffset')

/-- The startup scan of `flatFileBlockWorker` (src/unnamed/part_000 lines
64-97), reading entries of the offset file at the (advancing) file read
cursor: panic unless the length is a multiple of 8; if the file is nonempty,
loop with guard `offsetPos < offsetMax` — where `offsetPos` is set once by
`Seek(0, 0)` and never advanced — reading 8-byte entries into `curOffset`
and pushing them to `offsetChan`, panicking when `binary.Read` fails.
Finally `proofWriteHeight := int32(curOffset / 8)`.  Returns the resume
height and the streamed offsets. -/
def flatFileScan (bytes : List ℕ) (cursor : ℕ) (_curOffset : ℕ)
    (sent : List ℕ) : ℕ → Res (ℕ × List ℕ)
  | 0 => .error (.crash "loop fuel exhausted")
  | fuel + 1 =>
    -- loop guard `offsetPos < offsetMax` with `offsetPos = 0 < offsetMax`:
    -- always true here, so the loop only exits through the panic on a
    -- failed read.
    if cursor + 8 ≤ bytes.length then
      let v := beVal ((bytes.drop cursor).take 8)
      flatFileScan bytes (cursor + 8) v (sent ++ [v]) fuel
    else
      .error (.crash "couldn't populate in-ram offsets on startup")

/-- Startup of `flatFileBlockWorker`: returns the resume height
(`proofWriteHeight` at loop entry) and the offsets streamed to the TTL
worker. -/
def flatFileBlockWorkerStartup (offsetFileBytes : List ℕ) :
    Res (ℕ × List ℕ) :=
  let offsetMax := offsetFileBytes.length
  if offsetMax % 8 ≠ 0 then
    .error (.crash "offset file not mulitple of 8 bytes")
  else if offsetMax = 0 then
    -- the scan is skipped entirely; curOffset keeps its zero value
    .ok (0 / 8, [])
  else
    match flatFileScan offsetFileBytes 0 0 [] (offsetMax / 8 + 1) with
    | .error e => .error e
    | .ok (curOffset, sent) => .ok (curOffset / 8, sent)

/-- A TTL entry of a `ttlResultBlock` (type declared outside `src/`; fields
as used by `flatFileTTLWorker`: `c.createHeight`, `c.indexWithinBlock`). -/
structure TTLEntry where
  createHeight : ℕ
  indexWithinBlock : ℕ
deriving DecidableEq, Repr

/-- A block of TTL results (`ttlResultBlock`, declared outside `src/`;
fields as used by `flatFileTTLWorker`: `ttlRes.Height`, `ttlRes.Created`). -/
structure TtlResultBlock where
  height : ℕ
  created : List TTLEntry
deriving DecidableEq, Repr

/-- Applying one TTL result block in `flatFileTTLWorker`
(src/unnamed/part_000 lines 169-193), given the in-RAM offsets and the
current proof-file bytes: for each entry the code indexes
`inRamOffsets[c.createHeight]` (panicking if out of range) and seeks to
`inRamOffsets[c.createHeight] + 4 + 4*c.indexWithinBlock`, but its proof
file handle is opened with `O_APPEND|O_CREATE|O_WRONLY`, so the
`binary.Write` of the 4-byte big-endian `int32` TTL value
`ttlRes.Height - c.createHeight` is appended at end of file and the seek
offset is ignored for the write. -/
def flatFileTTLWorkerApply (inRamOffsets : List ℕ) (proofFile : List ℕ)
    (ttlRes : TtlResultBlock) : Res (List ℕ) :=
  ttlRes.created.foldlM
    (fun pf c =>
      match inRamOffsets.get? c.createHeight with
      | none => .error (.crash "index out of range")
      | some _ =>
          .ok (pf ++ be32i ((ttlRes.height : ℤ) - (c.createHeight : ℤ))))
    proofFile

/-! ## Hashes and the position map

The `accumulator` package's `Hash`/`MiniHash`/`Leaf` types and the hash
helpers are declared outside `src/`, so they are modelled from the spec
(§3, §4.1). -/

/-- Modelled from the spec: `Hash` is "a fixed 32-byte opaque digest" with
the all-zero sentinel `EMPTY`.  The 2^256 byte vectors are modelled by `ℕ`,
with `empty = 0` for the sentinel. -/
abbrev Hash := ℕ

/-- Modelled from the spec: the all-zero sentinel `EMPTY`. -/
def empty : Hash := 0

/-- Modelled from the spec: `parentHash(left, right)` is the "cryptographic
256-bit hash of the 64-byte concatenation `left || right`" (single SHA-256).
The spec treats it as collision-free in practice and never equal to the
sentinel (roots are required non-EMPTY), so it is modelled as an injective
pairing that is never `empty`. -/
def parentHash (l r : Hash) : Hash :=
  (l + r) * (l + r + 1) / 2 + r + 1

/-- Modelled from the spec: `MiniHash` is a short prefix of a `Hash` whose
collisions "within a single forest are assumed negligible"; modelled as the
hash itself. -/
def Hash.mini (h : Hash) : ℕ := h

/-- Modelled from the spec: a `Leaf` is "a Hash plus a boolean remember
flag". -/
structure Leaf where
  hash : Hash
  remember : Bool := false
deriving DecidableEq, Repr

/-- `Leaf.Mini()`: the MiniHash of the leaf's hash. -/
def Leaf.mini (l : Leaf) : ℕ := l.hash.mini

/-- The `positionMap` (Go `map[MiniHash]uint64`), modelled as an association
list with first-match lookup and in-place update. -/
abbrev PosMap := List (ℕ × ℕ)

/-- Go map assignment `m[k] = v`: replace the binding of `k` in place, else
append. -/
def pmInsert : PosMap → ℕ → ℕ → PosMap
  | [], k, v => [(k, v)]
  | (k', v') :: rest, k, v =>
      if k' = k then (k, v) :: rest else (k', v') :: pmInsert rest k v

/-- Go `delete(m, k)`. -/
def pmDelete : PosMap → ℕ → PosMap
  | [], _ => []
  | (k', v') :: rest, k =>
      if k' = k then rest else (k', v') :: pmDelete rest k

/-- Go map read `m[k]` (`none` for a missing key, whose Go zero value is 0).
-/
def pmLookup : PosMap → ℕ → Option ℕ
  | [], _ => none
  | (k', v') :: rest, k => if k' = k then some v' else pmLookup rest k

/-! ## Positional arithmetic

`parent`, `inForest`, `detectRow`, `getRootsForwards`, `condenseDeletions`,
`mergeSortedSlices` and `sortUint64s` live outside `src/` and are modelled
from spec §4.1, consistently with how `src/bridgenode/server.go` consumes
them. -/

/-- Modelled from the spec: `parent(p, rows)` under the bottom-left-to-top
numbering: drop the low bit and set bit `rows`. -/
def parent (p : ℕ) (rows : ℕ) : ℕ :=
  (p / 2) ||| (1 <<< rows)

/-- One step of the standard `inForest` descent: while the top bit is set,
`pos = ((pos << 1) & mask) | 1`.  For `pos < mask` the number of leading
ones strictly decreases, so `rows + 1` steps always suffice. -/
def inForestLoop (marker mask : ℕ) : ℕ → ℕ → ℕ
  | 0, pos => pos
  | fuel + 1, pos =>
      if pos &&& marker ≠ 0 then
        inForestLoop marker mask fuel (((pos <<< 1) &&& mask) ||| 1)
      else pos

/-- Modelled from the spec: `inForest(p, numLeaves, rows)` — "a position is
in forest iff it lies within a live subtree rooted at one of the current
roots", via the standard bit recurrence. -/
def inForest (pos numLeaves rows : ℕ) : Bool :=
  if pos < numLeaves then true
  else if pos ≥ ((1 <<< rows) <<< 1) - 1 then false
  else
    inForestLoop (1 <<< rows) (((1 <<< rows) <<< 1) - 1) (rows + 1) pos <
      numLeaves

/-- `parent` iterated `rise` times (the standard `parentMany`). -/
def parentMany (pos rise rows : ℕ) : ℕ :=
  (fun p => parent p rows)^[rise] pos

/-- Peak enumeration for `getRootsForwards`: scan the bits of `numLeaves`
from bit `r - 1` down to bit 0, emitting `(rootPosition, row)` for each set
bit, with `position` advancing left to right across the leaf row. -/
def rootsFrom (numLeaves rows : ℕ) : ℕ → ℕ → List (ℕ × ℕ)
  | 0, _ => []
  | r + 1, position =>
      if numLeaves &&& (1 <<< r) ≠ 0 then
        (parentMany position r rows, r) ::
          rootsFrom numLeaves rows r (position + (1 <<< r))
      else rootsFrom numLeaves rows r position

/-- Modelled from the spec: `getRootsForwards(numLeaves, rows)` "returns
root positions ...: the bits of `numLeaves` select which roots exist; their
positions are computed by a standard peak-finding recurrence over the row
tops".  The list is ordered left to right across the forest (highest row
first), which is the order its consumers in `src/bridgenode/server.go`
(`addv2`, `reHash`) index it by.  Returns the position list and, as the Go
function's return value, the row list. -/
def getRootsForwards (numLeaves rows : ℕ) : List ℕ × List ℕ :=
  let l := rootsFrom numLeaves rows (rows + 1) 0
  (l.map Prod.fst, l.map Prod.snd)

/-- Insertion into a sorted list (ascending). -/
def insSorted (x : ℕ) : List ℕ → List ℕ
  | [] => [x]
  | y :: ys => if x ≤ y then x :: y :: ys else y :: insSorted x ys

/-- Modelled from the spec: `sortUint64s` — ascending sort. -/
def sortNat (l : List ℕ) : List ℕ :=
  l.foldr insSorted []

/-- One collapse pass of `condenseDeletions`: adjacent sibling pairs
(`b = a ^ 1`) collapse to their parent. -/
def condenseOnce (rows : ℕ) : List ℕ → List ℕ
  | a :: b :: rest =>
      if b = a ^^^ 1 then parent a rows :: condenseOnce rows rest
      else a :: condenseOnce rows (b :: rest)
  | l => l

/-- Iterate collapse passes (re-sorting, since parents live higher) until a
fixpoint; each productive pass shortens the list, so `length + 1` passes
suffice. -/
def condenseLoop (rows : ℕ) : ℕ → List ℕ → List ℕ
  | 0, l => l
  | fuel + 1, l =>
      let l' := sortNat (condenseOnce rows l)
      if l' = l then l else condenseLoop rows fuel l'

/-- Modelled from the spec: `condenseDeletions(sortedDels, rows)` — "given a
sorted ascending list of deletion positions, return the minimal sorted list
of ancestor positions such that deleting each covers exactly the input set.
Adjacent siblings collapse to their parent; the process iterates upward
until no pair collapses." -/
def condenseDeletions (dels : List ℕ) (rows : ℕ) : List ℕ :=
  let s := sortNat dels
  condenseLoop rows (s.length + 1) s

/-! ## The forest and its RAM backend

`ramForestData` (src/accumulator/forestdata.go lines 26-79): a vector of
hashes; out-of-range reads and writes crash ("If you read beyond the bounds
that's on you and it'll crash"). -/

/-- `ramForestData.read`: `r.m[pos]`, crashing out of range. -/
def dataRead (d : List Hash) (p : ℕ) : Res Hash :=
  match d.get? p with
  | some h => .ok h
  | none => .error (.crash "index out of range")

/-- `ramForestData.write`: `r.m[pos] = h`, crashing out of range. -/
def dataWrite (d : List Hash) (p : ℕ) (h : Hash) : Res (List Hash) :=
  if p < d.length then .ok (d.set p h)
  else .error (.crash "index out of range")

/-- `ramForestData.resize`: append `newSize - size` zero (EMPTY) entries.
The count is a `uint64` difference fed to `make`, so shrinking wraps around
to an astronomical count and `make` panics; a Go slice length must also fit
in an `int`, so `make` panics past `2^63 - 1` elements. -/
def dataResize (d : List Hash) (newSize : ℕ) : Res (List Hash) :=
  if newSize < d.length ∨ 2 ^ 63 ≤ newSize then
    .error (.crash "makeslice: len out of range")
  else
    .ok (d ++ List.replicate (newSize - d.length) empty)

/-- The forest engine state (`Forest` in src/bridgenode/server.go lines
492-543, RAM backend; the benchmarking counters are omitted). -/
structure Forest where
  numLeaves : ℕ
  rows : ℕ
  data : List Hash
  positionMap : PosMap
deriving DecidableEq, Repr

/-- `NewForest(RamForest, ...)` (src/bridgenode/server.go lines 572-603):
empty forest, backend resized to `(2 << 0) - 1 = 1` slot. -/
def NewForest : Forest :=
  { numLeaves := 0, rows := 0,
    data := List.replicate ((2 <<< 0) - 1) empty, positionMap := [] }

def Forest.read (f : Forest) (p : ℕ) : Res Hash :=
  dataRead f.data p

def Forest.write (f : Forest) (p : ℕ) (h : Hash) : Res Forest := do
  let d ← dataWrite f.data p h
  .ok { f with data := d }

/-! ## Swapless deletion (src/bridgenode/server.go lines 620-677) -/

/-- `promote` (lines 657-663): write the hash at `p` into `parent(p, rows)`.
-/
def Forest.promote (f : Forest) (p : ℕ) : Res Forest := do
  let v ← f.read p
  f.write (parent p f.rows) v

/-- `lonely` (lines 668-677): `p` is lonely iff its aunt
(`parent(p, rows) ^ 1`) and its sibling (`p ^ 1`) are both in-forest and at
least one of them reads EMPTY; aunts outside the forest count as non-empty.
-/
def Forest.lonely (f : Forest) (p : ℕ) : Res Bool :=
  if inForest (parent p f.rows ^^^ 1) f.numLeaves f.rows &&
      inForest (p ^^^ 1) f.numLeaves f.rows then do
    let a ← f.read (parent p f.rows ^^^ 1)
    let s ← f.read (p ^^^ 1)
    .ok (a == empty || s == empty)
  else .ok false

/-- The `for f.lonely(p)` ascent of `removev5` (lines 635-642): while `p` is
lonely, rise, then promote the sibling if it is non-empty, else promote `p`
itself.  Each iteration raises the row of `p` by one and the body crashes
once `parent(p, rows)` leaves the storage, so `rows + 2` fuel is never
exhausted on a terminating Go run. -/
def Forest.riseLoop (f : Forest) (p : ℕ) : ℕ → Res (Forest × ℕ)
  | 0 => .error (.crash "rise loop fuel exhausted")
  | fuel + 1 => do
    let l ← f.lonely p
    if l then
      let p' := parent p f.rows
      let s ← f.read (p' ^^^ 1)
      let f' ← if s != empty then f.promote (p' ^^^ 1) else f.promote p'
      f'.riseLoop p' fuel
    else .ok (f, p)

/-- The body of the main iteration of `removev5` (lines 629-648) for one
condensed deletion position `p`: promote the sibling, rise once if `p` is
not lonely, run the lonely ascent, and return the final state together with
the dirt position `parent(p, rows)` of the resting position. -/
def Forest.delOne (f : Forest) (p : ℕ) : Res (Forest × ℕ) := do
  let f1 ← f.promote (p ^^^ 1)
  let l ← f1.lonely p
  let p1 := if !l then parent p f1.rows else p
  let (f2, pEnd) ← f1.riseLoop p1 (f1.rows + 2)
  .ok (f2, parent pEnd f2.rows)

/-- `removev5` (lines 620-653) drops the deleted leaves from the position
map, processes each condensed deletion, collects dirt (unused: `Modify`
never calls `reHash`), and decrements `numLeaves` by `len(dels)` with
`uint64` wraparound.  Its two loop bodies are split off first: the
position-map cleanup (lines 622-624). -/
def Forest.posMapDel (g : Forest) (d : ℕ) : Res Forest := do
  let h ← g.read d
  .ok { g with positionMap := pmDelete g.positionMap h.mini }

/-- The body of the main iteration of `removev5` (lines 629-648), carrying
the forest and the dirt list across one condensed deletion position. -/
def Forest.delStep (acc : Forest × List ℕ) (p : ℕ) :
    Res (Forest × List ℕ) := do
  let (g', dirtpos) ← acc.1.delOne p
  if acc.2 = [] ∨ acc.2.getLast? ≠ some dirtpos then
    .ok (g', acc.2 ++ [dirtpos])
  else
    .ok (g', acc.2)

/-- The body of `removev5` proper. -/
def Forest.removev5 (f : Forest) (dels : List ℕ) : Res Forest := do
  let f0 ← dels.foldlM Forest.posMapDel f
  let acc ← (condenseDeletions dels f0.rows).foldlM Forest.delStep
    (f0, ([] : List ℕ))
  .ok { acc.1 with
        numLeaves :=
          (acc.1.numLeaves + 2 ^ 64 - dels.length % 2 ^ 64) % 2 ^ 64 }

/-! ## Adding leaves (src/bridgenode/server.go lines 777-808) -/

/-- The rising loop of `addv2` (lines 798-805): for each low set bit `h` of
`numLeaves`, read the root at `positionList.list[len - (h+1)]` (a negative
index panics), hash it with the running hash, rise, write.  `numLeaves` is a
`uint64` (and a Go shift of it by 64 or more yields 0), so at most 64
iterations can occur; fuel 65 is never exhausted on a Go-representable
state. -/
def Forest.addRise (f : Forest) (rootList : List ℕ) (numLeaves : ℕ) :
    ℕ → ℕ → Hash → ℕ → Res (Forest × ℕ × Hash)
  | _, _, _, 0 => .error (.crash "rise fuel exhausted")
  | h, pos, n, fuel + 1 =>
    if (numLeaves >>> h) &&& 1 = 1 then
      if rootList.length < h + 1 then .error (.crash "index out of range")
      else
        match rootList.get? (rootList.length - (h + 1)) with
        | none => .error (.crash "index out of range")
        | some rp => do
          let root ← f.read rp
          let n' := parentHash root n
          let pos' := parent pos f.rows
          let f' ← f.write pos' n'
          f'.addRise rootList numLeaves (h + 1) pos' n' fuel
    else .ok (f, pos, n)

/-- One iteration of `addv2` (lines 787-807): map the leaf's MiniHash to
`numLeaves`, compute the current root list, write the leaf hash at position
`numLeaves`, run the rising loop, and increment `numLeaves` (a `uint64`;
wraparound there would require a backend of at least 2^64 slots, which the
model does not bother to reproduce). -/
def Forest.addOne (f : Forest) (leaf : Leaf) : Res Forest := do
  let f0 := { f with
              positionMap := pmInsert f.positionMap leaf.mini f.numLeaves }
  let rootList := (getRootsForwards f0.numLeaves f0.rows).1
  let pos := f0.numLeaves
  let n := leaf.hash
  let f1 ← f0.write pos n
  let (f2, _, _) ← f1.addRise rootList f1.numLeaves 0 pos n 65
  .ok { f2 with numLeaves := f2.numLeaves + 1 }

/-- `addv2` (lines 782-808): append each leaf in order. -/
def Forest.addv2 (f : Forest) (adds : List Leaf) : Res Forest :=
  adds.foldlM Forest.addOne f

/-! ## Growing the forest (src/bridgenode/server.go lines 859-910) -/

/-- The relocation loop of `reMap` for rows `1 .. destRows - 1`: at each row
the source positions `(pos >> 1) + x` are read (the `f.data.size() > ...`
guard is subsumed: the unconditional `src := f.data.read(...)` on the next
line crashes exactly when it fails) and non-empty hashes are copied to
`pos + x`. -/
def reMapCopy (d : List Hash) : ℕ → ℕ → ℕ → Res (List Hash)
  | 0, _, _ => .ok d
  | hrem + 1, pos, reach => do
    let runLength := reach / 2
    let d' ← (List.range runLength).foldlM
      (fun dd x => do
        let v ← dataRead dd (pos / 2 + x)
        if v ≠ empty then dataWrite dd (pos + x) v else .ok dd) d
    reMapCopy d' hrem (pos + reach) (reach / 2)

/-- `reMap` (lines 859-910): refuse a no-op, a change by more than one row,
or a reduction; resize the backend to `(2 << destRows) - 1`; relocate the
internal rows; zero out the new right half of the leaf row; set `rows`. -/
def Forest.reMap (f : Forest) (destRows : ℕ) : Res Forest :=
  if destRows = f.rows then
    .error (.goError "can't remap to the same number of rows")
  else if destRows > f.rows + 1 ∨ (0 < f.rows ∧ destRows < f.rows - 1) then
    .error (.goError "changing by more than 1 not programmed yet")
  else if destRows < f.rows then
    .error (.goError "row reduction not implemented")
  else do
    let d0 ← dataResize f.data ((2 <<< destRows) - 1)
    let d1 ← reMapCopy d0 (destRows - 1) (1 <<< destRows)
      ((1 <<< destRows) / 2)
    let d2 ← (List.range ((1 <<< destRows) - (1 <<< f.rows))).foldlM
      (fun dd i => dataWrite dd ((1 <<< f.rows) + i) empty) d1
    .ok { f with data := d2, rows := destRows }

/-! ## Modify (src/bridgenode/server.go lines 814-856) -/

/-- The undo data retained by `Modify` (`UndoBlock` and `BuildUndoData` are
declared outside `src/`).  Modelled from the spec: "for adds, simply the
count; for dels, the hashes being removed together with their positions"
(read after the deletion pass, which leaves leaf slots in place). -/
structure UndoBlock where
  numAdds : ℕ
  positions : List ℕ
  hashes : List Hash
deriving DecidableEq, Repr

/-- Modelled from the spec: `BuildUndoData(numadds, dels)` (declared outside
`src/`): record the add count and the hash at each deleted position. -/
def Forest.buildUndoData (f : Forest) (numAdds : ℕ) (dels : List ℕ) :
    Res UndoBlock := do
  let hs ← dels.mapM f.read
  .ok ⟨numAdds, dels, hs⟩

/-- The remap loop of `Modify` (lines 833-839): grow one row at a time while
`numLeaves + delta` exceeds `1 << rows`.  The loop adds one row per
iteration, so fuel 64 covers every `uint64`-sized forest. -/
def Forest.growFor (f : Forest) (delta : ℤ) : ℕ → Res Forest
  | 0 => .error (.crash "remap fuel exhausted")
  | fuel + 1 =>
    if (f.numLeaves : ℤ) + delta > (2 : ℤ) ^ f.rows then do
      let f' ← f.reMap (f.rows + 1)
      f'.growFor delta fuel
    else .ok f

/-- `Modify` (lines 814-856): check for excessive deletions, sort the
deletions, check for empty leaves, remap upward as needed, run the deletion
pass, build the undo data, append the additions. -/
def Forest.Modify (f : Forest) (adds : List Leaf) (delsUn : List ℕ) :
    Res (Forest × UndoBlock) :=
  if (f.numLeaves : ℤ) + ((adds.length : ℤ) - (delsUn.length : ℤ)) < 0 then
    .error (.goError "can't delete more leaves than exist")
  else if adds.any (fun a => a.hash == empty) then
    .error (.goError "Can't add empty (all 0s) leaf to accumulator")
  else do
    let f1 ← f.growFor ((adds.length : ℤ) - (delsUn.length : ℤ)) 64
    let f2 ← f1.removev5 (sortNat delsUn)
    let ub ← f2.buildUndoData adds.length (sortNat delsUn)
    let f3 ← f2.addv2 adds
    .ok (f3, ub)

/-- `getRoots` (lines 1084-1096): the hashes at the root positions. -/
def Forest.getRoots (f : Forest) : Res (List Hash) :=
  ((getRootsForwards f.numLeaves f.rows).1).mapM f.read

/-- `sanity` (lines 914-938) without the error strings: `numLeaves` fits
under `1 << rows`, every root is non-EMPTY, and the position map is not
larger than the leaf count. -/
def Forest.sanityHolds (f : Forest) : Prop :=
  f.numLeaves ≤ 1 <<< f.rows ∧
    ∀ r ∈ (getRootsForwards f.numLeaves f.rows).1, f.read r ≠ .ok empty

/-! ## The read-side proof fetcher (src/bridgenode/server.go lines 366-451)
-/

/-- The magic bytes `0xaa 0xff 0xaa 0xff` expected in front of each proof
record by the read side. -/
def realMagic : List ℕ := [0xaa, 0xff, 0xaa, 0xff]

/-- The `int64` read from the offset file at byte position `8 * height`,
as an unsigned value (`binary.Read` into `offset`). -/
def recOffset (pOffsetFile : List ℕ) (height : ℤ) : ℕ :=
  beVal ((pOffsetFile.drop (8 * height).toNat).take 8)

/-- The 4 bytes of the proof file at the recorded offset (read into
`readMagic`). -/
def recMagic (pFile : List ℕ) (offset : ℕ) : List ℕ :=
  (pFile.drop offset).take 4

/-- The `uint32` record length following the magic (`binary.Read` into
`size`). -/
def recSize (pFile : List ℕ) (offset : ℕ) : ℕ :=
  beVal ((pFile.drop (offset + 4)).take 4)

/-- `GetUDataBytesFromFile` (src/bridgenode/server.go lines 366-451) over
byte-list models of the offset file and the proof file.  `height` is the Go
`int32` argument.  File opens always succeed in the model; `Seek` fails on a
negative target; `binary.Read` fails unless all requested bytes are there; a
plain `Read` of `n` bytes returns the available bytes, erring only at EOF,
and the code checks the returned count only for the magic. -/
def GetUDataBytesFromFile (pOffsetFile pFile : List ℕ) (height : ℤ) :
    Res (List ℕ) :=
  if height = 0 then
    .error (.goError "Block 0 is not in blk files or utxo set")
  else if height < 0 then
    .error (.goError "offsetFile.Seek: negative position")
  else if pOffsetFile.length < (8 * height).toNat + 8 then
    .error (.goError "binary.Read: unexpected EOF")
  else if 2 ^ 63 ≤ recOffset pOffsetFile height then
    -- the stored int64 is negative, so the proof-file seek fails
    .error (.goError "proofFile.Seek: negative position")
  else if pFile.length ≤ recOffset pOffsetFile height then
    -- reading the magic at EOF returns (0, io.EOF)
    .error (.goError "EOF")
  else if pFile.length < recOffset pOffsetFile height + 4 then
    .error (.goError "only read fewer than 4 bytes from proof file")
  else if recMagic pFile (recOffset pOffsetFile height) ≠ realMagic then
    .error (.goError "expect magic aaffaaff but read otherwise")
  else if pFile.length < recOffset pOffsetFile height + 8 then
    .error (.goError "binary.Read: unexpected EOF reading size")
  else if 2 ^ 24 < recSize pFile (recOffset pOffsetFile height) then
    .error (.goError "size says too big")
  -- b := make([]byte, size); proofFile.Read(b) is a single read whose
  -- short count the code ignores
  else if 0 < recSize pFile (recOffset pOffsetFile height) ∧
      pFile.length ≤ recOffset pOffsetFile height + 8 then
    .error (.goError "proofFile.Read(ubytes): EOF")
  else
    .ok ((pFile.drop (recOffset pOffsetFile height + 8)).take
          (recSize pFile (recOffset pOffsetFile height)) ++
        List.replicate
          (recSize pFile (recOffset pOffsetFile height) -
            ((pFile.drop (recOffset pOffsetFile height + 8)).take
              (recSize pFile (recOffset pOffsetFile height))).length) 0)

/-! ## Claim C1 -/

/-- **C1** (code bug): on a fresh stream with the concrete payload
`[0x01, 0x02]`, `flatFileBlockWorker` appends to the proof file only the
4-byte big-endian length followed by the payload — six bytes, with no
`0xaa 0xff 0xaa 0xff` magic — and advances `curOffset` by `4 + len(payload)
= 6`, not by `8 + len(payload) = 10` as the claim states (and as the
read side `GetUDataBytesFromFile` and the file-format comment at the top of
src/unnamed/part_000, which reserves 4 leading bytes per record, expect). -/
theorem flatFileBlockWorker_writes_no_magic :
    (flatFileBlockWorkerStep ⟨[], [], 0, 0⟩ [1, 2]).1.proofFile =
        [0, 0, 0, 2, 1, 2] ∧
      (flatFileBlockWorkerStep ⟨[], [], 0, 0⟩ [1, 2]).1.curOffset = 6 ∧
      (flatFileBlockWorkerStep ⟨[], [], 0, 0⟩ [1, 2]).1.proofFile ≠
        [0xaa, 0xff, 0xaa, 0xff, 0, 0, 0, 2] ++ [1, 2] ∧
      (flatFileBlockWorkerStep ⟨[], [], 0, 0⟩ [1, 2]).1.curOffset ≠ 8 + 2 := by
  decide

/-! ## Claim C2 -/

/-- **C2** (code bug): with in-RAM offsets `[0, 10]` and a 30-byte proof
file holding byte `7` everywhere, applying the TTL result block for height
`H = 5` with the single entry `(createHeight 1, indexWithinBlock 0)`
appends the 4 bytes `0,0,0,4` at end of file (the proof file handle is
opened with `O_APPEND`, and the seek it ignores targets `offset + 4`, not
`offset + 8`): the 4 bytes at the claimed patch position
`inRamOffsets[1] + 8 + 4*0 = 18` are left unchanged (`7,7,7,7`, not the
big-endian `H − createHeight = 4`), while bytes beyond the original end of
file do change. -/
theorem flatFileTTLWorker_appends_instead_of_patching :
    flatFileTTLWorkerApply [0, 10] (List.replicate 30 7) ⟨5, [⟨1, 0⟩]⟩ =
        .ok (List.replicate 30 7 ++ [0, 0, 0, 4]) ∧
      ((List.replicate 30 7 ++ [0, 0, 0, 4] : List ℕ).drop 18).take 4 =
        [7, 7, 7, 7] ∧
      ((List.replicate 30 7 ++ [0, 0, 0, 4] : List ℕ).drop 18).take 4 ≠
        [0, 0, 0, 4] ∧
      (List.replicate 30 7 ++ [0, 0, 0, 4] : List ℕ).length ≠
        (List.replicate 30 7 : List ℕ).length := by
  refine ⟨rfl, by decide, by decide, by decide⟩

/-! ## Claim C7 -/

/-- **C7** (code bug): on startup with a well-formed nonempty offset file —
the single 8-byte big-endian entry `0` — `flatFileBlockWorker` never reaches
a resume height at all: its scan loop's guard `offsetPos < offsetMax` never
advances `offsetPos`, so the loop re-reads until `binary.Read` fails at EOF
and panics, instead of resuming at `length / 8 = 1` (and the height it would
compute, `int32(curOffset / 8)`, divides the last offset value read, not the
file length).  Only the empty offset file resumes, trivially at height 0. -/
theorem flatFileBlockWorkerStartup_panics_on_nonempty_file :
    flatFileBlockWorkerStartup (List.replicate 8 0) =
        .error (.crash "couldn't populate in-ram offsets on startup") ∧
      (List.replicate 8 0 : List ℕ).length % 8 = 0 ∧
      (List.replicate 8 0 : List ℕ).length / 8 = 1 ∧
      flatFileBlockWorkerStartup [] = .ok (0, []) := by
  refine ⟨rfl, rfl, rfl, rfl⟩

/-! ## Claim C10 -/

/-- **C10** (confirmed): called with height 0, `GetUDataBytesFromFile`
returns the "Block 0" error no matter what the offset file and the proof
file contain — the check precedes every file open and read, which is why the
result does not depend on either file. -/
theorem getUDataBytesFromFile_height_zero (pOffsetFile pFile : List ℕ) :
    GetUDataBytesFromFile pOffsetFile pFile 0 =
      .error (.goError "Block 0 is not in blk files or utxo set") := by
  simp [GetUDataBytesFromFile]

/-! ## Claim C8 -/

set_option maxHeartbeats 2000000 in
/-- **C8** (confirmed): for `height > 0`, `GetUDataBytesFromFile` returns an
error whenever the 4 bytes of the proof file at the offset recorded for
`height` differ from the magic `0xaa 0xff 0xaa 0xff`, and whenever the
recorded payload length exceeds `2^24`; moreover any successful return
implies the magic matched and the length was within bounds, and the returned
buffer has exactly the recorded length — the payload buffer exists only
after both checks succeed. -/
theorem getUDataBytesFromFile_validates (pOffsetFile pFile : List ℕ)
    (height : ℤ) (hpos : 0 < height) :
    (recMagic pFile (recOffset pOffsetFile height) ≠ realMagic →
        resIsError (GetUDataBytesFromFile pOffsetFile pFile height) = true) ∧
      (2 ^ 24 < recSize pFile (recOffset pOffsetFile height) →
        resIsError (GetUDataBytesFromFile pOffsetFile pFile height) = true) ∧
      ∀ b, GetUDataBytesFromFile pOffsetFile pFile height = .ok b →
        recMagic pFile (recOffset pOffsetFile height) = realMagic ∧
          recSize pFile (recOffset pOffsetFile height) ≤ 2 ^ 24 ∧
          b.length = recSize pFile (recOffset pOffsetFile height) := by
  have key : ∀ b, GetUDataBytesFromFile pOffsetFile pFile height = .ok b →
      recMagic pFile (recOffset pOffsetFile height) = realMagic ∧
        recSize pFile (recOffset pOffsetFile height) ≤ 2 ^ 24 ∧
        b.length = recSize pFile (recOffset pOffsetFile height) := by
    intro b hb
    unfold GetUDataBytesFromFile at hb
    split at hb
    · exact nomatch hb
    split at hb
    · exact nomatch hb
    split at hb
    · exact nomatch hb
    split at hb
    · exact nomatch hb
    split at hb
    · exact nomatch hb
    split at hb
    · exact nomatch hb
    split at hb
    · exact nomatch hb
    next cmagic =>
      split at hb
      · exact nomatch hb
      split at hb
      next csize => exact nomatch hb
      next csize =>
        split at hb
        · exact nomatch hb
        next cread =>
          have hb' := (Except.ok.inj hb).symm
          subst hb'
          refine ⟨not_not.mp cmagic, le_of_not_lt csize, ?_⟩
          simp only [List.length_append, List.length_take, List.length_drop,
            List.length_replicate]
          omega
  refine ⟨?_, ?_, key⟩
  · intro hmagic
    cases hres : GetUDataBytesFromFile pOffsetFile pFile height with
    | error e => rfl
    | ok b => exact absurd (key b hres).1 hmagic
  · intro hsize
    cases hres : GetUDataBytesFromFile pOffsetFile pFile height with
    | error e => rfl
    | ok b => exact absurd hsize (not_lt.mpr (key b hres).2.1)

/-- Witness for C8 at a concrete input: a 16-byte all-zero offset file
records offset 0 for height 1, and a proof file opening with `1 2 3 4`
fails the magic check, so the fetch errors. -/
theorem getUDataBytesFromFile_validates_witness :
    resIsError (GetUDataBytesFromFile (List.replicate 16 0)
      [1, 2, 3, 4, 0, 0, 0, 0] 1) = true :=
  (getUDataBytesFromFile_validates (List.replicate 16 0)
    [1, 2, 3, 4, 0, 0, 0, 0] 1 (by decide)).1 (by decide)

/-! ## Claim C3 -/

/-- The per-position deletion step as claim C3 words it: after promoting the
sibling into the parent, rise exactly once *unconditionally*, then run the
lonely ascent.  (This definition follows the claim's words, to be compared
with `Forest.delOne`, which is translated from the source.) -/
def Forest.delOneClaim (f : Forest) (p : ℕ) : Res (Forest × ℕ) := do
  let f1 ← f.promote (p ^^^ 1)
  let (f2, pEnd) ← f1.riseLoop (parent p f1.rows) (f1.rows + 2)
  .ok (f2, parent pEnd f2.rows)

/-- **C3** counterexample: in the forest with `numLeaves = 4`, `rows = 2`
and backend `[1, 2, 3, 4, 9, 0, 7]` (position 5 EMPTY, so position 0 is
lonely: its aunt 5 and sibling 1 are in-forest and the aunt reads EMPTY),
deleting position 0 — for which `condenseDeletions [0] = [0]` — does *not*
rise after the promote: the code skips the rise because `p` is lonely, and
the subsequent ascent promotes position 4 into position 6, producing backend
`[1, 2, 3, 4, 2, 0, 2]`, whereas the claim's unconditional-rise routine
leaves position 6 untouched (`[1, 2, 3, 4, 2, 0, 7]`). -/
theorem removev5_rise_not_unconditional :
    condenseDeletions [0] 2 = [0] ∧
      Forest.removev5 ⟨4, 2, [1, 2, 3, 4, 9, 0, 7], []⟩ [0] =
        .ok ⟨3, 2, [1, 2, 3, 4, 2, 0, 2], []⟩ ∧
      Forest.delOne ⟨4, 2, [1, 2, 3, 4, 9, 0, 7], []⟩ 0 =
        .ok (⟨4, 2, [1, 2, 3, 4, 2, 0, 2], []⟩, 6) ∧
      Forest.delOneClaim ⟨4, 2, [1, 2, 3, 4, 9, 0, 7], []⟩ 0 =
        .ok (⟨4, 2, [1, 2, 3, 4, 2, 0, 7], []⟩, 6) ∧
      ([1, 2, 3, 4, 2, 0, 2] : List Hash) ≠ [1, 2, 3, 4, 2, 0, 7] := by
  exact ⟨rfl, rfl, rfl, rfl, by decide⟩

/-- **C3** (amended): in `removev5`, after writing the sibling's hash into
`parent(p, rows)`, the routine rises exactly once *only when `p` is not
lonely* (when `p` is lonely the initial rise is skipped and the ascent
starts at `p` itself), and then keeps rising while `p` is lonely; and
`lonely(p)` is true iff both the aunt `parent(p, rows) ^ 1` and the sibling
`p ^ 1` are in-forest and at least one of them reads EMPTY (positions
outside the forest count as non-empty). -/
theorem removev5_rise_once_iff_not_lonely (f f1 : Forest) (p : ℕ) (l : Bool)
    (hprom : f.promote (p ^^^ 1) = .ok f1) (hl : f1.lonely p = .ok l) :
    (f.delOne p = do
        let fp ← f1.riseLoop (if l then p else parent p f1.rows) (f1.rows + 2)
        .ok (fp.1, parent fp.2 fp.1.rows)) ∧
      (l = true ↔
        inForest (parent p f1.rows ^^^ 1) f1.numLeaves f1.rows = true ∧
          inForest (p ^^^ 1) f1.numLeaves f1.rows = true ∧
          (f1.read (parent p f1.rows ^^^ 1) = .ok empty ∨
            f1.read (p ^^^ 1) = .ok empty)) := by
  have hrows : f1.rows = f.rows := by
    unfold Forest.promote Forest.write at hprom
    cases hv : f.read (p ^^^ 1) with
    | error e => rw [hv] at hprom; exact nomatch hprom
    | ok v =>
      rw [hv] at hprom
      simp only [resBindOk] at hprom
      cases hw : dataWrite f.data (parent (p ^^^ 1) f.rows) v with
      | error e => rw [hw] at hprom; exact nomatch hprom
      | ok d =>
        rw [hw] at hprom
        simp only [resBindOk] at hprom
        cases hprom
        rfl
  constructor
  · unfold Forest.delOne
    rw [hprom]
    simp only [resBindOk, hl]
    cases l <;> simp
  · unfold Forest.lonely at hl
    split at hl
    next hcond =>
      rw [Bool.and_eq_true] at hcond
      cases hra : f1.read (parent p f1.rows ^^^ 1) with
      | error e =>
        rw [hra] at hl
        exact nomatch hl
      | ok a =>
        rw [hra] at hl
        simp only [resBindOk] at hl
        cases hrs : f1.read (p ^^^ 1) with
        | error e =>
          rw [hrs] at hl
          exact nomatch hl
        | ok s =>
          rw [hrs] at hl
          simp only [resBindOk] at hl
          have hls : l = (a == empty || s == empty) :=
            (Except.ok.inj hl).symm
          subst hls
          simp [hcond.1, hcond.2, hra, hrs]
    next hcond =>
      have hlf : l = false := (Except.ok.inj hl).symm
      subst hlf
      simp only [Bool.false_eq_true, false_iff]
      rintro ⟨h1, h2, -⟩
      exact hcond (by simp [h1, h2])

/-- Witness for the amended C3 at a concrete input: in the four-leaf forest
`[1, 2, 3, 4, 9, 0, 7]`, promoting the sibling of position 0 yields
`[1, 2, 3, 4, 2, 0, 7]`, where position 0 *is* lonely (`l = true`), and the
theorem's lonely characterization produces the in-forest facts and the EMPTY
aunt read. -/
theorem removev5_rise_once_iff_not_lonely_witness :
    inForest (parent 0 (2 : ℕ) ^^^ 1) 4 2 = true ∧
      inForest ((0 : ℕ) ^^^ 1) 4 2 = true ∧
      (Forest.read ⟨4, 2, [1, 2, 3, 4, 2, 0, 7], []⟩ (parent 0 2 ^^^ 1) =
          .ok empty ∨
        Forest.read ⟨4, 2, [1, 2, 3, 4, 2, 0, 7], []⟩ ((0 : ℕ) ^^^ 1) =
          .ok empty) :=
  (removev5_rise_once_iff_not_lonely ⟨4, 2, [1, 2, 3, 4, 9, 0, 7], []⟩
    ⟨4, 2, [1, 2, 3, 4, 2, 0, 7], []⟩ 0 true (by rfl) (by rfl)).2.mp rfl

/-! ## Claim C5 -/

/-- **C5** (confirmed): `Modify(adds, dels)` returns an error — and hence no
UndoBlock — whenever some leaf in `adds` carries the EMPTY (all-zero) hash,
or `len(dels)` exceeds `numLeaves + len(adds)`.  Both checks sit at the top
of `Modify`, before any mutation. -/
theorem modify_rejects_invalid (f : Forest) (adds : List Leaf)
    (dels : List ℕ)
    (h : (∃ a ∈ adds, a.hash = empty) ∨
      (f.numLeaves : ℤ) + adds.length < dels.length) :
    ∃ msg, f.Modify adds dels = .error (.goError msg) := by
  unfold Forest.Modify
  split
  · exact ⟨_, rfl⟩
  next h1 =>
    split
    · exact ⟨_, rfl⟩
    next h2 =>
      exfalso
      rcases h with ⟨a, ha, hempty⟩ | h
      · exact h2 (List.any_eq_true.mpr ⟨a, ha, by simp [hempty]⟩)
      · omega

/-- Witness for C5 at a concrete input: adding the EMPTY leaf to the fresh
forest is rejected. -/
theorem modify_rejects_invalid_witness :
    ∃ msg, NewForest.Modify [⟨0, false⟩] [] = .error (.goError msg) :=
  modify_rejects_invalid NewForest [⟨0, false⟩] []
    (Or.inl ⟨⟨0, false⟩, by simp, rfl⟩)

/-! ## Arithmetic facts about the positional helpers -/

theorem lor_two_pow_of_lt {a n : ℕ} (h : a < 2 ^ n) :
    a ||| 2 ^ n = a + 2 ^ n := by
  apply Nat.eq_of_testBit_eq
  intro i
  rw [Nat.testBit_lor, Nat.add_comm a (2 ^ n)]
  rcases lt_trichotomy i n with hi | rfl | hi
  · rw [Nat.testBit_two_pow_of_ne (Nat.ne_of_gt hi),
      Nat.testBit_two_pow_add_gt hi]
    simp
  · rw [Nat.testBit_two_pow_self, Nat.testBit_two_pow_add_eq,
      Nat.testBit_eq_false_of_lt h]
    simp
  · have h1 : a.testBit i = false :=
      Nat.testBit_eq_false_of_lt
        (lt_of_lt_of_le h (Nat.pow_le_pow_right (by norm_num) hi.le))
    have h2 : (2 ^ n + a).testBit i = false := by
      refine Nat.testBit_eq_false_of_lt (lt_of_lt_of_le ?_
        (Nat.pow_le_pow_right (by norm_num) hi))
      have : (2 : ℕ) ^ (n + 1) = 2 ^ n + 2 ^ n := by ring
      omega
    rw [h1, h2, Nat.testBit_two_pow_of_ne (Nat.ne_of_lt hi)]
    simp

/-- `parent` in plain arithmetic, below the top of the enclosing tree. -/
theorem parent_eq {p : ℕ} (rows : ℕ) (h : p < 2 ^ (rows + 1)) :
    parent p rows = p / 2 + 2 ^ rows := by
  have h2 : (2 : ℕ) ^ (rows + 1) = 2 * 2 ^ rows := by ring
  unfold parent
  rw [Nat.shiftLeft_eq, one_mul, lor_two_pow_of_lt (by omega)]

theorem xor_one_of_even {p : ℕ} (h : p % 2 = 0) : p ^^^ 1 = p + 1 := by
  apply Nat.eq_of_testBit_eq
  intro i
  rw [Nat.testBit_xor]
  cases i with
  | zero =>
    simp only [Nat.testBit_to_div_mod, pow_zero, Nat.div_one]
    have : (p + 1) % 2 = 1 := by omega
    simp [Nat.one_mod, this, h]
  | succ j =>
    have h1 : Nat.testBit 1 (j + 1) = false :=
      Nat.testBit_eq_false_of_lt (by
        have : (2 : ℕ) ^ 1 ≤ 2 ^ (j + 1) :=
          Nat.pow_le_pow_right (by norm_num) (by omega)
        omega)
    rw [h1, Bool.xor_false]
    have hd : p / 2 ^ (j + 1) = (p + 1) / 2 ^ (j + 1) := by
      rw [pow_succ, mul_comm, ← Nat.div_div_eq_div_mul,
        ← Nat.div_div_eq_div_mul]
      congr 1
      omega
    simp only [Nat.testBit_to_div_mod, hd]

theorem xor_one_of_odd {p : ℕ} (h : p % 2 = 1) : p ^^^ 1 = p - 1 := by
  apply Nat.eq_of_testBit_eq
  intro i
  rw [Nat.testBit_xor]
  cases i with
  | zero =>
    simp only [Nat.testBit_to_div_mod, pow_zero, Nat.div_one]
    have : (p - 1) % 2 = 0 := by omega
    simp [Nat.one_mod, this, h]
  | succ j =>
    have h1 : Nat.testBit 1 (j + 1) = false :=
      Nat.testBit_eq_false_of_lt (by
        have : (2 : ℕ) ^ 1 ≤ 2 ^ (j + 1) :=
          Nat.pow_le_pow_right (by norm_num) (by omega)
        omega)
    rw [h1, Bool.xor_false]
    have hd : p / 2 ^ (j + 1) = (p - 1) / 2 ^ (j + 1) := by
      rw [pow_succ, mul_comm, ← Nat.div_div_eq_div_mul,
        ← Nat.div_div_eq_div_mul]
      congr 1
      omega
    simp only [Nat.testBit_to_div_mod, hd]

theorem one_shiftLeft (r : ℕ) : (1 : ℕ) <<< r = 2 ^ r := by
  rw [Nat.shiftLeft_eq, one_mul]

theorem two_shiftLeft (r : ℕ) : (2 : ℕ) <<< r = 2 ^ (r + 1) := by
  rw [Nat.shiftLeft_eq, pow_succ]
  ring

/-- The loop guard of `addv2`'s rising loop is the bit test. -/
theorem shiftRight_and_one (n h : ℕ) :
    ((n >>> h) &&& 1 = 1) ↔ n.testBit h = true := by
  rw [Nat.and_one_is_mod, Nat.shiftRight_eq_div_pow, Nat.testBit_to_div_mod]
  simp

/-! ## The position of a node by row and in-row index

`posAt rows r j` is the position of the `j`-th node (left to right) of row
`r` in the flat numbering of a perfect tree with `rows` rows: row `r` starts
at `2^(rows+1) - 2^(rows+1-r)` and holds `2^(rows-r)` nodes. -/

def posAt (rows r j : ℕ) : ℕ :=
  2 ^ (rows + 1) - 2 ^ (rows + 1 - r) + j

@[simp] theorem posAt_zero (rows j : ℕ) : posAt rows 0 j = j := by
  unfold posAt
  simp only [Nat.sub_zero]
  omega

theorem posAt_le_max {rows r j : ℕ} (hr : r ≤ rows) (hj : j < 2 ^ (rows - r)) :
    posAt rows r j < 2 ^ (rows + 1) - 1 := by
  unfold posAt
  have e1 : 2 ^ (rows + 1 - r) = 2 * 2 ^ (rows - r) := by
    rw [← pow_succ']
    congr 1
    omega
  have e2 : (1 : ℕ) ≤ 2 ^ (rows - r) := Nat.one_le_two_pow
  have e3 : 2 ^ (rows + 1 - r) ≤ 2 ^ (rows + 1) :=
    Nat.pow_le_pow_right (by norm_num) (by omega)
  omega

theorem posAt_ge {rows r j : ℕ} (hr : 1 ≤ r) (hrr : r ≤ rows) :
    2 ^ rows ≤ posAt rows r j := by
  unfold posAt
  have e3 : 2 ^ (rows + 1 - r) ≤ 2 ^ rows :=
    Nat.pow_le_pow_right (by norm_num) (by omega)
  have e4 : (2 : ℕ) ^ (rows + 1) = 2 * 2 ^ rows := by
    rw [← pow_succ']
  omega

/-- Rows occupy disjoint, adjacent bands, so `posAt` is injective on
in-range arguments. -/
theorem posAt_inj {rows r j r' j' : ℕ} (hr : r ≤ rows)
    (hj : j < 2 ^ (rows - r)) (hr' : r' ≤ rows) (hj' : j' < 2 ^ (rows - r'))
    (heq : posAt rows r j = posAt rows r' j') : r = r' ∧ j = j' := by
  have band : ∀ a b : ℕ, a ≤ rows → b ≤ rows → a < b →
      ∀ x y : ℕ, x < 2 ^ (rows - a) → posAt rows a x < posAt rows b y := by
    intro a b ha hb hab x y hx
    unfold posAt
    have e1 : 2 ^ (rows + 1 - a) = 2 * 2 ^ (rows - a) := by
      rw [← pow_succ']
      congr 1
      omega
    have e2 : 2 ^ (rows - a) ≥ 2 * 2 ^ (rows - b) := by
      calc 2 ^ (rows - a) ≥ 2 ^ (rows - b + 1) :=
            Nat.pow_le_pow_right (by norm_num) (by omega)
        _ = 2 * 2 ^ (rows - b) := by rw [pow_succ']
    have e3 : 2 ^ (rows + 1 - b) = 2 * 2 ^ (rows - b) := by
      rw [← pow_succ']
      congr 1
      omega
    have e4 : 2 ^ (rows + 1 - a) ≤ 2 ^ (rows + 1) :=
      Nat.pow_le_pow_right (by norm_num) (by omega)
    omega
  rcases lt_trichotomy r r' with hlt | rfl | hgt
  · exact absurd heq (Nat.ne_of_lt (band r r' hr hr' hlt j j' hj))
  · constructor
    · rfl
    · unfold posAt at heq
      omega
  · exact absurd heq.symm (Nat.ne_of_lt (band r' r hr' hr hgt j' j hj'))

/-- Rising from a node of row `r`: the parent of the `j`-th node of row `r`
is the `j/2`-th node of row `r + 1`. -/
theorem parent_posAt {rows r j : ℕ} (hr : r < rows) (hj : j < 2 ^ (rows - r)) :
    parent (posAt rows r j) rows = posAt rows (r + 1) (j / 2) := by
  have e1 : 2 ^ (rows + 1 - r) = 2 * 2 ^ (rows - r) := by
    rw [← pow_succ']
    congr 1
    omega
  have e2 : 2 ^ (rows - r) = 2 * 2 ^ (rows - (r + 1)) := by
    rw [← pow_succ']
    congr 1
    omega
  have e3 : (2 : ℕ) ^ (rows + 1) = 2 * 2 ^ rows := by
    rw [← pow_succ']
  have e4 : 2 ^ (rows + 1 - r) ≤ 2 ^ (rows + 1) :=
    Nat.pow_le_pow_right (by norm_num) (by omega)
  have e6 : 2 ^ (rows - r) ≤ 2 ^ rows :=
    Nat.pow_le_pow_right (by norm_num) (by omega)
  have e7 : (1 : ℕ) ≤ 2 ^ (rows - (r + 1)) := Nat.one_le_two_pow
  have hb : posAt rows r j < 2 ^ (rows + 1) := by
    unfold posAt
    omega
  rw [parent_eq rows hb]
  unfold posAt
  have e5 : 2 ^ (rows + 1 - (r + 1)) = 2 ^ (rows - r) := by
    congr 1
    omega
  omega

/-- The position of leaf `j` (row 0) is `j` and rising `r` times lands on
row `r` at index `j / 2^r`. -/
theorem parentMany_posAt {rows : ℕ} : ∀ {r j : ℕ}, r ≤ rows → j < 2 ^ rows →
    parentMany j r rows = posAt rows r (j / 2 ^ r) := by
  intro r
  induction r with
  | zero =>
    intro j _ _
    simp [parentMany]
  | succ r ih =>
    intro j hr hj
    unfold parentMany at ih ⊢
    rw [Function.iterate_succ_apply', ih (by omega) hj]
    have hjr : j / 2 ^ r < 2 ^ (rows - r) := by
      apply Nat.div_lt_of_lt_mul
      calc j < 2 ^ rows := hj
        _ = 2 ^ r * 2 ^ (rows - r) := by
            rw [← pow_add]
            congr 1
            omega
        _ ≤ 2 ^ r * 2 ^ (rows - r) := le_refl _
    rw [parent_posAt (by omega) hjr]
    congr 1
    rw [pow_succ, mul_comm (2 ^ r) 2, Nat.div_div_eq_div_mul, mul_comm]

theorem testBit_true_mod {n r : ℕ} (h : n.testBit r = true) :
    n % 2 ^ (r + 1) = n % 2 ^ r + 2 ^ r := by
  have hm := @Nat.mod_mul (2 ^ r) 2 n
  rw [← pow_succ] at hm
  have hb : n / 2 ^ r % 2 = 1 := by
    simpa [Nat.testBit_to_div_mod] using h
  rw [hb] at hm
  omega

theorem testBit_false_mod {n r : ℕ} (h : n.testBit r = false) :
    n % 2 ^ (r + 1) = n % 2 ^ r := by
  have hm := @Nat.mod_mul (2 ^ r) 2 n
  rw [← pow_succ] at hm
  have hb : n / 2 ^ r % 2 = 0 := by
    have ht := @Nat.testBit_to_div_mod r n
    rw [h] at ht
    have hne : ¬ (n / 2 ^ r % 2 = 1) := by simpa using ht.symm
    omega
  rw [hb] at hm
  omega

/-- Every pair emitted by the peak scan is a set bit `b` of `numLeaves`
below the scan bound, whose root position is the top of the full subtree of
`2^b` leaves ending at the prefix sum. -/
theorem rootsFrom_mem {n rows : ℕ} (hn : n ≤ 2 ^ rows) :
    ∀ r position, position = n - n % 2 ^ r →
      ∀ q b, (q, b) ∈ rootsFrom n rows r position →
        b < r ∧ b ≤ rows ∧ n.testBit b = true ∧
          q = posAt rows b (2 * (n / 2 ^ (b + 1))) ∧
          (2 * (n / 2 ^ (b + 1)) + 1) * 2 ^ b ≤ n := by
  intro r
  induction r with
  | zero =>
    intro position _ q b hmem
    exact absurd hmem (List.not_mem_nil _)
  | succ r ih =>
    intro position hpos q b hmem
    rw [rootsFrom] at hmem
    by_cases hbit : n.testBit r = true
    · rw [if_pos (by
        rw [one_shiftLeft, Nat.and_two_pow, hbit]
        simpa using (Nat.two_pow_pos r).ne')] at hmem
      have hmod := testBit_true_mod hbit
      have hmodlt : n % 2 ^ r < 2 ^ r := Nat.mod_lt _ (Nat.two_pow_pos r)
      rcases List.mem_cons.mp hmem with hhead | htail
      · have hq : q = parentMany position r rows := congrArg Prod.fst hhead
        have hb : b = r := congrArg Prod.snd hhead
        subst hb
        have h1b : (1 : ℕ) ≤ 2 ^ b := Nat.one_le_two_pow
        have hrle : b ≤ rows := by
          by_contra hgt
          have hlt : (2 : ℕ) ^ rows < 2 ^ b :=
            Nat.pow_lt_pow_right (by norm_num) (by omega)
          have hle2 : (2 : ℕ) ^ b ≤ 2 ^ (b + 1) :=
            Nat.pow_le_pow_right (by norm_num) (by omega)
          have hmodn : n % 2 ^ (b + 1) = n := Nat.mod_eq_of_lt (by omega)
          omega
        have hdm := Nat.div_add_mod n (2 ^ (b + 1))
        have hposval : position = 2 ^ (b + 1) * (n / 2 ^ (b + 1)) := by omega
        have hposlt : position < 2 ^ rows := by omega
        have e2 : (2 : ℕ) ^ (b + 1) = 2 ^ b * 2 := pow_succ 2 b
        have hdiv : position / 2 ^ b = 2 * (n / 2 ^ (b + 1)) := by
          rw [hposval, e2, mul_assoc, Nat.mul_div_cancel_left _
            (Nat.two_pow_pos b), mul_comm]
        have hexp : (2 * (n / 2 ^ (b + 1)) + 1) * 2 ^ b =
            2 ^ (b + 1) * (n / 2 ^ (b + 1)) + 2 ^ b := by
          rw [e2]
          ring
        refine ⟨by omega, hrle, hbit, ?_, by omega⟩
        rw [hq, parentMany_posAt hrle hposlt, hdiv]
      · have hmodle := Nat.mod_le n (2 ^ (r + 1))
        have hpos' : position + 1 <<< r = n - n % 2 ^ r := by
          rw [one_shiftLeft]
          omega
        obtain ⟨h1, h2, h3, h4, h5⟩ := ih (position + 1 <<< r) hpos' q b htail
        exact ⟨by omega, h2, h3, h4, h5⟩
    · have hbit' : n.testBit r = false := by
        simpa using hbit
      rw [if_neg (by
        rw [one_shiftLeft, Nat.and_two_pow, hbit']
        simp)] at hmem
      have hmod := testBit_false_mod hbit'
      have hpos' : position = n - n % 2 ^ r := by omega
      obtain ⟨h1, h2, h3, h4, h5⟩ := ih position hpos' q b hmem
      exact ⟨by omega, h2, h3, h4, h5⟩

/-- Every position returned by `getRootsForwards` is the top of a full
subtree of the forest: `posAt rows b j` with `(j + 1) * 2^b ≤ numLeaves`. -/
theorem getRootsForwards_mem {n rows q : ℕ} (hn : n ≤ 2 ^ rows)
    (hq : q ∈ (getRootsForwards n rows).1) :
    ∃ b j, b ≤ rows ∧ q = posAt rows b j ∧ (j + 1) * 2 ^ b ≤ n ∧
      j < 2 ^ (rows - b) := by
  unfold getRootsForwards at hq
  simp only [List.mem_map] at hq
  obtain ⟨⟨q', b⟩, hmem, hfst⟩ := hq
  have hstart : (0 : ℕ) = n - n % 2 ^ (rows + 1) := by
    have : n % 2 ^ (rows + 1) = n :=
      Nat.mod_eq_of_lt (lt_of_le_of_lt hn (Nat.pow_lt_pow_right (by norm_num)
        (by omega)))
    omega
  obtain ⟨h1, h2, h3, h4, h5⟩ := rootsFrom_mem hn (rows + 1) 0 hstart q' b hmem
  refine ⟨b, 2 * (n / 2 ^ (b + 1)), h2, by rw [← hfst, h4], h5, ?_⟩
  have hb2 : (2 : ℕ) ^ rows = 2 ^ b * 2 ^ (rows - b) := by
    rw [← pow_add]
    congr 1
    omega
  have := Nat.two_pow_pos b
  nlinarith [h5, hn]

theorem getRootsForwards_length (n rows : ℕ) :
    (getRootsForwards n rows).1.length =
      ((List.range (rows + 1)).filter (fun b => n.testBit b)).length := by
  unfold getRootsForwards
  rw [List.length_map]
  suffices h : ∀ r position, (rootsFrom n rows r position).length =
      ((List.range r).filter (fun b => n.testBit b)).length from h (rows + 1) 0
  intro r
  induction r with
  | zero => intro position; rfl
  | succ r ih =>
    intro position
    rw [rootsFrom, List.range_succ, List.filter_append]
    by_cases hbit : n.testBit r = true
    · rw [if_pos (by
        rw [one_shiftLeft, Nat.and_two_pow, hbit]
        simpa using (Nat.two_pow_pos r).ne')]
      simp [ih, hbit]
    · have hbit' : n.testBit r = false := by simpa using hbit
      rw [if_neg (by
        rw [one_shiftLeft, Nat.and_two_pow, hbit']
        simp)]
      simp [ih, hbit']

/-- If the low bits `0 .. h` of `numLeaves` are all set, the root list has
more than `h` entries. -/
theorem getRootsForwards_length_ge {n rows h : ℕ} (hh : h ≤ rows)
    (hbits : ∀ b, b ≤ h → n.testBit b = true) :
    h + 1 ≤ (getRootsForwards n rows).1.length := by
  rw [getRootsForwards_length]
  have hsub : rows + 1 = (h + 1) + (rows - h) := by omega
  rw [hsub, List.range_add, List.filter_append]
  have hall : (List.range (h + 1)).filter (fun b => n.testBit b) =
      List.range (h + 1) := by
    apply List.filter_eq_self.mpr
    intro b hb
    exact hbits b (by
      have := List.mem_range.mp hb
      omega)
  rw [List.length_append, hall, List.length_range]
  omega

/-! ## List helpers for the hash vector -/

theorem getD_set_self {d : List Hash} {i : ℕ} (v : Hash) (h : i < d.length) :
    (d.set i v).getD i empty = v := by
  rw [List.getD_eq_getElem?_getD, List.getElem?_set_self h]
  rfl

theorem getD_set_ne {d : List Hash} {i j : ℕ} (v : Hash) (h : i ≠ j) :
    (d.set i v).getD j empty = d.getD j empty := by
  rw [List.getD_eq_getElem?_getD, List.getElem?_set_ne h,
    ← List.getD_eq_getElem?_getD]

theorem dataRead_ok {d : List Hash} {p : ℕ} {v : Hash}
    (h : dataRead d p = .ok v) : p < d.length ∧ d.getD p empty = v := by
  unfold dataRead at h
  cases hg : d.get? p with
  | none => rw [hg] at h; exact nomatch h
  | some w =>
    rw [hg] at h
    have hv : w = v := Except.ok.inj h
    subst hv
    obtain ⟨hlt, -⟩ := List.get?_eq_some.mp hg
    refine ⟨hlt, ?_⟩
    rw [List.getD_eq_getElem?_getD, ← List.get?_eq_getElem?, hg]
    rfl

theorem dataWrite_ok {d : List Hash} {p : ℕ} {v : Hash} {d' : List Hash}
    (h : dataWrite d p v = .ok d') : p < d.length ∧ d' = d.set p v := by
  unfold dataWrite at h
  split at h
  · exact ⟨by assumption, (Except.ok.inj h).symm⟩
  · exact nomatch h

/-! ## The full-subtree invariant

`FullNE d rows m` says: every node of the perfect tree whose whole leaf
span lies below `m` holds a non-EMPTY hash.  Its row-0 instances say the
first `m` leaf slots are non-EMPTY; by `getRootsForwards_mem` the roots of
`(m, rows)` are particular full tops.  This is the inductive strengthening
behind the `sanity` invariant. -/

def FullNE (d : List Hash) (rows m : ℕ) : Prop :=
  ∀ r j, r ≤ rows → (j + 1) * 2 ^ r ≤ m →
    d.getD (posAt rows r j) empty ≠ empty

theorem FullNE_mono {d : List Hash} {rows m m' : ℕ} (h : m' ≤ m)
    (hF : FullNE d rows m) : FullNE d rows m' :=
  fun r j hr hj => hF r j hr (le_trans hj h)

theorem FullNE_set {d : List Hash} {rows m : ℕ} (hF : FullNE d rows m)
    {T : ℕ} {v : Hash}
    (hv : v ≠ empty ∨
      ∀ r j, r ≤ rows → (j + 1) * 2 ^ r ≤ m → posAt rows r j ≠ T) :
    FullNE (d.set T v) rows m := by
  intro r j hr hj
  by_cases hT : posAt rows r j = T
  · rcases hv with hv | hv
    · by_cases hlt : T < d.length
      · rw [hT, getD_set_self v hlt]
        exact hv
      · rw [List.set_eq_of_length_le (by omega)]
        exact hF r j hr hj
    · exact absurd hT (hv r j hr hj)
  · rw [getD_set_ne v (fun he => hT he.symm)]
    exact hF r j hr hj

/-- From the bound on a full subtree's span, its in-row index is in range.
-/
theorem full_index_lt {rows m r j : ℕ} (hm : m ≤ 2 ^ rows) (hr : r ≤ rows)
    (hj : (j + 1) * 2 ^ r ≤ m) : j < 2 ^ (rows - r) := by
  have hsplit : (2 : ℕ) ^ rows = 2 ^ r * 2 ^ (rows - r) := by
    rw [← pow_add]
    congr 1
    omega
  have hpos := Nat.two_pow_pos r
  nlinarith

/-- If `parent x` is the top of a full subtree, `x` is one of its two
children, itself full, so the hash read at `x` is non-EMPTY. -/
theorem read_child_ne_empty {d : List Hash} {rows m x r' j' : ℕ} {v : Hash}
    (hlen : d.length = 2 ^ (rows + 1) - 1) (hm : m ≤ 2 ^ rows)
    (hF : FullNE d rows m) (hx : x < d.length) (hr' : r' ≤ rows)
    (hj' : (j' + 1) * 2 ^ r' ≤ m) (hT : posAt rows r' j' = parent x rows)
    (hread : d.getD x empty = v) : v ≠ empty := by
  have h1 : (1 : ℕ) ≤ 2 ^ (rows + 1) := Nat.one_le_two_pow
  have hxb : x < 2 ^ (rows + 1) := by omega
  have hpar : parent x rows = x / 2 + 2 ^ rows := parent_eq rows hxb
  have hjlt : j' < 2 ^ (rows - r') := full_index_lt hm hr' hj'
  have e0 : (2 : ℕ) ^ (rows + 1) = 2 * 2 ^ rows := by rw [← pow_succ']
  have h1r : 1 ≤ r' := by
    rcases Nat.eq_zero_or_pos r' with h0 | h1
    · exfalso
      subst h0
      rw [posAt_zero] at hT
      simp only [pow_zero, mul_one] at hj'
      omega
    · exact h1
  have e1 : 2 ^ (rows + 1 - r') ≤ 2 ^ rows :=
    Nat.pow_le_pow_right (by norm_num) (by omega)
  have e2 : 2 ^ (rows + 1 - (r' - 1)) = 2 * 2 ^ (rows + 1 - r') := by
    rw [← pow_succ']
    congr 1
    omega
  have hchild : posAt rows (r' - 1) (2 * j' + x % 2) = x := by
    unfold posAt at hT ⊢
    omega
  have hcfull : (2 * j' + x % 2 + 1) * 2 ^ (r' - 1) ≤ m := by
    have er : (2 : ℕ) ^ r' = 2 * 2 ^ (r' - 1) := by
      rw [← pow_succ']
      congr 1
      omega
    have hle : (2 * j' + x % 2 + 1) * 2 ^ (r' - 1) ≤
        (j' + 1) * 2 ^ r' := by
      rw [er]
      have hx2 : x % 2 < 2 := Nat.mod_lt _ (by norm_num)
      nlinarith [Nat.two_pow_pos (r' - 1)]
    omega
  have := hF (r' - 1) (2 * j' + x % 2) (by omega) hcfull
  rw [hchild, hread] at this
  exact this

/-- What `promote` does when it succeeds. -/
theorem promote_ok {f : Forest} {x : ℕ} {g : Forest}
    (h : f.promote x = .ok g) :
    ∃ v, dataRead f.data x = .ok v ∧ parent x f.rows < f.data.length ∧
      g = { f with data := f.data.set (parent x f.rows) v } := by
  unfold Forest.promote Forest.write Forest.read at h
  cases hv : dataRead f.data x with
  | error e => rw [hv] at h; exact nomatch h
  | ok v =>
    rw [hv] at h
    simp only [resBindOk] at h
    cases hw : dataWrite f.data (parent x f.rows) v with
    | error e => rw [hw] at h; exact nomatch h
    | ok d' =>
      rw [hw] at h
      simp only [resBindOk] at h
      obtain ⟨hlt, hset⟩ := dataWrite_ok hw
      refine ⟨v, rfl, hlt, ?_⟩
      rw [← Except.ok.inj h, hset]

/-- A successful `promote` — with any argument — preserves the
full-subtree invariant: when its target is a full top, both children are
full, so the value it copies up is non-EMPTY. -/
theorem promote_preserves_FullNE {f g : Forest} {x m : ℕ}
    (hlen : f.data.length = 2 ^ (f.rows + 1) - 1) (hm : m ≤ 2 ^ f.rows)
    (hF : FullNE f.data f.rows m) (h : f.promote x = .ok g) :
    FullNE g.data f.rows m ∧ g.rows = f.rows ∧
      g.data.length = f.data.length ∧ g.numLeaves = f.numLeaves ∧
      g.positionMap = f.positionMap := by
  obtain ⟨v, hv, hplt, rfl⟩ := promote_ok h
  obtain ⟨hxlt, hgetD⟩ := dataRead_ok hv
  refine ⟨?_, rfl, List.length_set _ _ _, rfl, rfl⟩
  apply FullNE_set hF
  by_cases hfull : ∃ r' j', r' ≤ f.rows ∧ (j' + 1) * 2 ^ r' ≤ m ∧
      posAt f.rows r' j' = parent x f.rows
  · obtain ⟨r', j', hr', hj', hT⟩ := hfull
    exact Or.inl (read_child_ne_empty hlen hm hF hxlt hr' hj' hT hgetD)
  · push_neg at hfull
    exact Or.inr fun r j hr hj => hfull r j hr hj

/-- The lonely ascent only promotes, so it preserves the full-subtree
invariant and every field but the hash vector. -/
theorem riseLoop_preserves {m : ℕ} : ∀ (fuel : ℕ) (f : Forest) (p : ℕ)
    (g : Forest) (pe : ℕ),
    f.riseLoop p fuel = .ok (g, pe) →
    f.data.length = 2 ^ (f.rows + 1) - 1 → m ≤ 2 ^ f.rows →
    FullNE f.data f.rows m →
    FullNE g.data g.rows m ∧ g.rows = f.rows ∧
      g.data.length = f.data.length ∧ g.numLeaves = f.numLeaves ∧
      g.positionMap = f.positionMap := by
  intro fuel
  induction fuel with
  | zero =>
    intro f p g pe h _ _ _
    exact nomatch h
  | succ fuel ih =>
    intro f p g pe h hlen hm hF
    rw [Forest.riseLoop] at h
    cases hl : f.lonely p with
    | error e => rw [hl] at h; exact nomatch h
    | ok l =>
      rw [hl] at h
      simp only [resBindOk] at h
      cases l with
      | false =>
        rw [if_neg (by simp)] at h
        have hgp := Except.ok.inj h
        have hg : g = f := (congrArg Prod.fst hgp).symm
        subst hg
        exact ⟨hF, rfl, rfl, rfl, rfl⟩
      | true =>
        rw [if_pos rfl] at h
        cases hs : f.read (parent p f.rows ^^^ 1) with
        | error e => rw [hs] at h; exact nomatch h
        | ok s =>
          rw [hs] at h
          simp only [resBindOk] at h
          by_cases hse : (s != empty) = true
          · rw [if_pos hse] at h
            cases hp : f.promote (parent p f.rows ^^^ 1) with
            | error e => rw [hp] at h; exact nomatch h
            | ok f1 =>
              rw [hp] at h
              simp only [resBindOk] at h
              obtain ⟨hF1, hrows1, hlen1, hn1, hpm1⟩ :=
                promote_preserves_FullNE hlen hm hF hp
              obtain ⟨hFg, hr2, hl2, hn2, hp2⟩ :=
                ih f1 (parent p f.rows) g pe h
                  (by rw [hrows1, hlen1]; exact hlen)
                  (by rw [hrows1]; exact hm) (by rw [hrows1]; exact hF1)
              exact ⟨hFg, by rw [hr2, hrows1], by rw [hl2, hlen1],
                by rw [hn2, hn1], by rw [hp2, hpm1]⟩
          · rw [if_neg hse] at h
            cases hp : f.promote (parent p f.rows) with
            | error e => rw [hp] at h; exact nomatch h
            | ok f1 =>
              rw [hp] at h
              simp only [resBindOk] at h
              obtain ⟨hF1, hrows1, hlen1, hn1, hpm1⟩ :=
                promote_preserves_FullNE hlen hm hF hp
              obtain ⟨hFg, hr2, hl2, hn2, hp2⟩ :=
                ih f1 (parent p f.rows) g pe h
                  (by rw [hrows1, hlen1]; exact hlen)
                  (by rw [hrows1]; exact hm) (by rw [hrows1]; exact hF1)
              exact ⟨hFg, by rw [hr2, hrows1], by rw [hl2, hlen1],
                by rw [hn2, hn1], by rw [hp2, hpm1]⟩

/-- One condensed-deletion iteration preserves the invariant. -/
theorem delOne_preserves {m : ℕ} {f : Forest} {p : ℕ} {g : Forest} {pe : ℕ}
    (h : f.delOne p = .ok (g, pe))
    (hlen : f.data.length = 2 ^ (f.rows + 1) - 1) (hm : m ≤ 2 ^ f.rows)
    (hF : FullNE f.data f.rows m) :
    FullNE g.data g.rows m ∧ g.rows = f.rows ∧
      g.data.length = f.data.length ∧ g.numLeaves = f.numLeaves ∧
      g.positionMap = f.positionMap := by
  unfold Forest.delOne at h
  cases hp : f.promote (p ^^^ 1) with
  | error e => rw [hp] at h; exact nomatch h
  | ok f1 =>
    rw [hp] at h
    simp only [resBindOk] at h
    cases hl : f1.lonely p with
    | error e => rw [hl] at h; exact nomatch h
    | ok l =>
      rw [hl] at h
      simp only [resBindOk] at h
      obtain ⟨hF1, hrows1, hlen1, hn1, hpm1⟩ :=
        promote_preserves_FullNE hlen hm hF hp
      cases hrl : f1.riseLoop (if !l then parent p f1.rows else p)
          (f1.rows + 2) with
      | error e => rw [hrl] at h; exact nomatch h
      | ok gp =>
        obtain ⟨g2, pe2⟩ := gp
        rw [hrl] at h
        simp only [resBindOk] at h
        have hgp := Except.ok.inj h
        have hg : g = g2 := (congrArg Prod.fst hgp).symm
        subst hg
        obtain ⟨hFg, hr2, hl2, hn2, hp2⟩ :=
          @riseLoop_preserves m (f1.rows + 2) f1
            (if !l then parent p f1.rows else p) g pe2 hrl
            (by rw [hrows1, hlen1]; exact hlen)
            (by rw [hrows1]; exact hm) (by rw [hrows1]; exact hF1)
        exact ⟨hFg, by rw [hr2, hrows1], by rw [hl2, hlen1],
          by rw [hn2, hn1], by rw [hp2, hpm1]⟩

theorem delStep_ok {acc out : Forest × List ℕ} {p : ℕ}
    (h : Forest.delStep acc p = .ok out) :
    ∃ pe, acc.1.delOne p = .ok (out.1, pe) := by
  unfold Forest.delStep at h
  cases hd : acc.1.delOne p with
  | error e => rw [hd] at h; exact nomatch h
  | ok gp =>
    obtain ⟨g', dp⟩ := gp
    rw [hd] at h
    simp only [resBindOk] at h
    split at h
    · have hout := Except.ok.inj h
      exact ⟨dp, by rw [← hout]⟩
    · have hout := Except.ok.inj h
      exact ⟨dp, by rw [← hout]⟩

theorem foldlM_delStep_preserves {m : ℕ} : ∀ (l : List ℕ)
    (acc out : Forest × List ℕ),
    l.foldlM Forest.delStep acc = .ok out →
    acc.1.data.length = 2 ^ (acc.1.rows + 1) - 1 → m ≤ 2 ^ acc.1.rows →
    FullNE acc.1.data acc.1.rows m →
    FullNE out.1.data out.1.rows m ∧ out.1.rows = acc.1.rows ∧
      out.1.data.length = acc.1.data.length ∧
      out.1.numLeaves = acc.1.numLeaves ∧
      out.1.positionMap = acc.1.positionMap := by
  intro l
  induction l with
  | nil =>
    intro acc out h hlen hm hF
    have : acc = out := Except.ok.inj h
    subst this
    exact ⟨hF, rfl, rfl, rfl, rfl⟩
  | cons p rest ih =>
    intro acc out h hlen hm hF
    rw [List.foldlM_cons] at h
    cases hstep : Forest.delStep acc p with
    | error e => rw [hstep] at h; exact nomatch h
    | ok acc1 =>
      rw [hstep] at h
      simp only [resBindOk] at h
      obtain ⟨pe, hdel⟩ := delStep_ok hstep
      obtain ⟨hF1, hr1, hl1, hn1, hp1⟩ := delOne_preserves hdel hlen hm hF
      obtain ⟨hFo, hro, hlo, hno, hpo⟩ := ih acc1 out h
        (by rw [hr1, hl1]; exact hlen) (by rw [hr1]; exact hm) hF1
      exact ⟨hFo, by rw [hro, hr1], by rw [hlo, hl1],
        by rw [hno, hn1], by rw [hpo, hp1]⟩

theorem posMapDel_ok {g g' : Forest} {d : ℕ} (h : g.posMapDel d = .ok g') :
    g'.data = g.data ∧ g'.rows = g.rows ∧ g'.numLeaves = g.numLeaves := by
  unfold Forest.posMapDel at h
  cases hv : g.read d with
  | error e => rw [hv] at h; exact nomatch h
  | ok v =>
    rw [hv] at h
    simp only [resBindOk] at h
    rw [← Except.ok.inj h]
    exact ⟨rfl, rfl, rfl⟩

theorem foldlM_posMapDel_preserves : ∀ (l : List ℕ) (f f' : Forest),
    l.foldlM Forest.posMapDel f = .ok f' →
    f'.data = f.data ∧ f'.rows = f.rows ∧ f'.numLeaves = f.numLeaves := by
  intro l
  induction l with
  | nil =>
    intro f f' h
    rw [← Except.ok.inj h]
    exact ⟨rfl, rfl, rfl⟩
  | cons d rest ih =>
    intro f f' h
    rw [List.foldlM_cons] at h
    cases hstep : f.posMapDel d with
    | error e => rw [hstep] at h; exact nomatch h
    | ok f1 =>
      rw [hstep] at h
      simp only [resBindOk] at h
      obtain ⟨h1, h2, h3⟩ := posMapDel_ok hstep
      obtain ⟨h4, h5, h6⟩ := ih f1 f' h
      exact ⟨by rw [h4, h1], by rw [h5, h2], by rw [h6, h3]⟩

/-- The swapless deletion pass preserves the full-subtree invariant for any
`m` it held for, does not touch the hash-vector length or the row count,
and performs the wrapping `uint64` decrement of `numLeaves`. -/
theorem removev5_preserves {m : ℕ} {f : Forest} {dels : List ℕ} {g : Forest}
    (h : f.removev5 dels = .ok g)
    (hlen : f.data.length = 2 ^ (f.rows + 1) - 1) (hm : m ≤ 2 ^ f.rows)
    (hF : FullNE f.data f.rows m) :
    FullNE g.data g.rows m ∧ g.rows = f.rows ∧
      g.data.length = f.data.length ∧
      g.numLeaves =
        (f.numLeaves + 2 ^ 64 - dels.length % 2 ^ 64) % 2 ^ 64 := by
  unfold Forest.removev5 at h
  cases h0 : dels.foldlM Forest.posMapDel f with
  | error e => rw [h0] at h; exact nomatch h
  | ok f0 =>
    rw [h0] at h
    simp only [resBindOk] at h
    obtain ⟨hd0, hr0, hn0⟩ := foldlM_posMapDel_preserves dels f f0 h0
    cases h1 : (condenseDeletions dels f0.rows).foldlM Forest.delStep
        (f0, ([] : List ℕ)) with
    | error e => rw [h1] at h; exact nomatch h
    | ok acc =>
      rw [h1] at h
      simp only [resBindOk] at h
      obtain ⟨hFa, hra, hla, hna, hpa⟩ := foldlM_delStep_preserves
        (condenseDeletions dels f0.rows) (f0, []) acc h1
        (by simpa [hd0, hr0] using hlen) (by simpa [hr0] using hm)
        (by simpa [hd0, hr0] using hF)
      rw [← Except.ok.inj h]
      refine ⟨?_, ?_, ?_, ?_⟩
      · simpa using hFa
      · simpa [hr0] using hra
      · simpa [hd0] using hla
      · simp only []
        rw [hna]
        simp [hn0]

/-! ## What one add does -/

theorem parentHash_ne_empty (l r : Hash) : parentHash l r ≠ empty := by
  unfold parentHash empty
  exact Nat.succ_ne_zero _

/-- If bits `0 .. h` of `n` are set, the low `h+1` bits of `n` are all
ones. -/
theorem bitsLow_mod {n : ℕ} : ∀ h, (∀ b, b ≤ h → n.testBit b = true) →
    n % 2 ^ (h + 1) = 2 ^ (h + 1) - 1 := by
  intro h
  induction h with
  | zero =>
    intro hb
    have h1 := testBit_true_mod (hb 0 (le_refl 0))
    simp only [pow_zero, pow_one, zero_add] at h1 ⊢
    omega
  | succ h ih =>
    intro hb
    have h1 := testBit_true_mod (hb (h + 1) (le_refl _))
    have h2 := ih (fun b hbh => hb b (by omega))
    have h3 : (2 : ℕ) ^ (h + 2) = 2 * 2 ^ (h + 1) := by rw [← pow_succ']
    omega

/-- A set bit forces a lower bound. -/
theorem ge_two_pow_of_testBit {n h : ℕ} (hb : n.testBit h = true) :
    2 ^ h ≤ n := by
  have h1 := testBit_true_mod hb
  have h2 := Nat.mod_le n (2 ^ (h + 1))
  omega

/-- Unfolding equation for `addRise` at positive fuel. -/
theorem addRise_succ (f : Forest) (rootList : List ℕ)
    (numLeaves h pos : ℕ) (nh : Hash) (fuel : ℕ) :
    f.addRise rootList numLeaves h pos nh (fuel + 1) =
    (if (numLeaves >>> h) &&& 1 = 1 then
      if rootList.length < h + 1 then .error (.crash "index out of range")
      else match rootList.get? (rootList.length - (h + 1)) with
        | none => .error (.crash "index out of range")
        | some rp => do
          let root ← f.read rp
          let n' := parentHash root nh
          let pos' := parent pos f.rows
          let f' ← f.write pos' n'
          f'.addRise rootList numLeaves (h + 1) pos' n' fuel
    else .ok (f, pos, nh)) := rfl

/-- The rising loop of `addv2`: success, locality of its writes, and
non-emptiness of the chain it writes.  `n` is the `numLeaves` at which the
leaf was appended; at entry to iteration `h` all bits `0 .. h-1` of `n` are
set and `pos` is `n`'s ancestor on row `h`. -/
theorem addRise_spec {n : ℕ} {rootList : List ℕ}
    (hroot_len : ∀ h', (∀ b, b ≤ h' → n.testBit b = true) →
      h' + 1 ≤ rootList.length) :
    ∀ (fuel : ℕ) (f : Forest) (h : ℕ) (pos : ℕ) (nh : Hash),
    f.data.length = 2 ^ (f.rows + 1) - 1 →
    (∀ q ∈ rootList, q < f.data.length) →
    n < 2 ^ f.rows →
    (∀ b, b < h → n.testBit b = true) →
    pos = posAt f.rows h (n / 2 ^ h) →
    f.rows + 1 - h ≤ fuel →
    ∃ g pos' nh',
      f.addRise rootList n h pos nh fuel = .ok (g, pos', nh') ∧
      g.rows = f.rows ∧ g.data.length = f.data.length ∧
      g.numLeaves = f.numLeaves ∧ g.positionMap = f.positionMap ∧
      (∀ q, (∀ k, h < k → k ≤ f.rows →
          (∀ b, h ≤ b → b < k → n.testBit b = true) →
          q ≠ posAt f.rows k (n / 2 ^ k)) →
        g.data.getD q empty = f.data.getD q empty) ∧
      (∀ k, h < k → k ≤ f.rows →
        (∀ b, h ≤ b → b < k → n.testBit b = true) →
        g.data.getD (posAt f.rows k (n / 2 ^ k)) empty ≠ empty) := by
  intro fuel
  induction fuel with
  | zero =>
    intro f h pos nh hlen hmem hn hbits hpos hfuel
    exfalso
    -- fuel 0 forces h > rows, but then bits 0 .. rows of n are set and
    -- n < 2 ^ rows is impossible
    have hhr : f.rows + 1 ≤ h := by omega
    have hmod := bitsLow_mod f.rows (fun b hb => hbits b (by omega))
    have hle := Nat.mod_le n (2 ^ (f.rows + 1))
    have h3 : (2 : ℕ) ^ (f.rows + 1) = 2 * 2 ^ f.rows := by rw [← pow_succ']
    omega
  | succ fuel ih =>
    intro f h pos nh hlen hmem hn hbits hpos hfuel
    by_cases hguard : (n >>> h) &&& 1 = 1
    · have hbit : n.testBit h = true := (shiftRight_and_one n h).mp hguard
      have hbitsh : ∀ b, b ≤ h → n.testBit b = true := by
        intro b hb
        rcases Nat.lt_or_ge b h with hlt | hge
        · exact hbits b hlt
        · have hbh : b = h := by omega
          rw [hbh]
          exact hbit
      have hlenge : h + 1 ≤ rootList.length := hroot_len h hbitsh
      have hhlt : h < f.rows := by
        by_contra hcon
        have h1 := ge_two_pow_of_testBit hbit
        have h2 : (2 : ℕ) ^ f.rows ≤ 2 ^ h :=
          Nat.pow_le_pow_right (by norm_num) (by omega)
        omega
      cases hget : rootList.get? (rootList.length - (h + 1)) with
      | none =>
        exfalso
        rw [List.get?_eq_none] at hget
        omega
      | some rp =>
        have hrpmem : rp ∈ rootList := List.get?_mem hget
        have hrplt : rp < f.data.length := hmem rp hrpmem
        cases hread : f.read rp with
        | error e =>
          exfalso
          unfold Forest.read dataRead at hread
          rw [List.get?_eq_get hrplt] at hread
          exact nomatch hread
        | ok root =>
          have hdivlt : n / 2 ^ h < 2 ^ (f.rows - h) := by
            apply Nat.div_lt_of_lt_mul
            calc n < 2 ^ f.rows := hn
              _ = 2 ^ h * 2 ^ (f.rows - h) := by
                  rw [← pow_add]
                  congr 1
                  omega
          have hdiv2 : n / 2 ^ (h + 1) < 2 ^ (f.rows - (h + 1)) := by
            apply Nat.div_lt_of_lt_mul
            calc n < 2 ^ f.rows := hn
              _ ≤ 2 ^ (h + 1) * 2 ^ (f.rows - (h + 1)) := by
                  rw [← pow_add]
                  apply Nat.pow_le_pow_right (by norm_num)
                  omega
          have hpar : parent pos f.rows =
              posAt f.rows (h + 1) (n / 2 ^ (h + 1)) := by
            rw [hpos, parent_posAt hhlt hdivlt]
            congr 1
            rw [pow_succ, mul_comm (2 ^ h) 2, Nat.div_div_eq_div_mul,
              mul_comm]
          have hparlt : parent pos f.rows < f.data.length := by
            rw [hpar, hlen]
            exact posAt_le_max (by omega) hdiv2
          have hw : f.write (parent pos f.rows) (parentHash root nh) =
              .ok { f with
                data := f.data.set (parent pos f.rows) (parentHash root nh) } := by
            unfold Forest.write dataWrite
            rw [if_pos hparlt]
            simp only [resBindOk]
          obtain ⟨g, pos', nh', hrec, hgr, hgl, hgn, hgm, hA, hB⟩ :=
            ih { f with
                data := f.data.set (parent pos f.rows) (parentHash root nh) }
              (h + 1) (parent pos f.rows) (parentHash root nh)
              (by
                show (f.data.set (parent pos f.rows)
                    (parentHash root nh)).length = 2 ^ (f.rows + 1) - 1
                rw [List.length_set]
                exact hlen)
              (by
                intro q hqm
                show q < (f.data.set (parent pos f.rows)
                    (parentHash root nh)).length
                rw [List.length_set]
                exact hmem q hqm)
              hn
              (fun b hb => hbitsh b (by omega))
              hpar
              (by
                show f.rows + 1 - (h + 1) ≤ fuel
                omega)
          refine ⟨g, pos', nh', ?_, hgr, ?_, hgn, hgm, ?_, ?_⟩
          · rw [addRise_succ, if_pos hguard, if_neg (by omega), hget]
            show (do
                let rt ← f.read rp
                let nn := parentHash rt nh
                let pp := parent pos f.rows
                let f2 ← f.write pp nn
                f2.addRise rootList n (h + 1) pp nn fuel) =
              .ok (g, pos', nh')
            rw [hread]
            simp only [resBindOk]
            rw [hw]
            simp only [resBindOk]
            exact hrec
          · rw [hgl]
            show (f.data.set (parent pos f.rows)
                (parentHash root nh)).length = f.data.length
            rw [List.length_set]
          · intro q hq
            have hq1 : q ≠ posAt f.rows (h + 1) (n / 2 ^ (h + 1)) := by
              refine hq (h + 1) (by omega) (by omega) ?_
              intro b hb1 hb2
              have hbh : b = h := by omega
              rw [hbh]
              exact hbit
            have hside : ∀ k, h + 1 < k → k ≤ f.rows →
                (∀ b, h + 1 ≤ b → b < k → n.testBit b = true) →
                q ≠ posAt f.rows k (n / 2 ^ k) := by
              intro k hk1 hk2 hkb
              refine hq k (by omega) hk2 ?_
              intro b hb1 hb2
              rcases Nat.lt_or_ge b (h + 1) with hc | hc
              · have hbh : b = h := by omega
                rw [hbh]
                exact hbit
              · exact hkb b hc hb2
            rw [hA q hside]
            show (f.data.set (parent pos f.rows)
                (parentHash root nh)).getD q empty = f.data.getD q empty
            apply getD_set_ne
            rw [hpar]
            exact fun he => hq1 he.symm
          · intro k hk1 hk2 hkb
            rcases Nat.lt_or_ge (h + 1) k with hgt | hle
            · exact hB k hgt hk2 (fun b hb1 hb2 => hkb b (by omega) hb2)
            · have hkeq : k = h + 1 := by omega
              subst hkeq
              have hside : ∀ k', h + 1 < k' → k' ≤ f.rows →
                  (∀ b, h + 1 ≤ b → b < k' → n.testBit b = true) →
                  posAt f.rows (h + 1) (n / 2 ^ (h + 1)) ≠
                    posAt f.rows k' (n / 2 ^ k') := by
                intro k' hk1' hk2' hbits'
                intro he
                have hdivk : n / 2 ^ k' < 2 ^ (f.rows - k') := by
                  apply Nat.div_lt_of_lt_mul
                  calc n < 2 ^ f.rows := hn
                    _ ≤ 2 ^ k' * 2 ^ (f.rows - k') := by
                        rw [← pow_add]
                        apply Nat.pow_le_pow_right (by norm_num)
                        omega
                obtain ⟨hre, -⟩ :=
                  posAt_inj (by omega) hdiv2 hk2' hdivk he
                omega
              rw [hA (posAt f.rows (h + 1) (n / 2 ^ (h + 1))) hside]
              show (f.data.set (parent pos f.rows)
                  (parentHash root nh)).getD
                  (posAt f.rows (h + 1) (n / 2 ^ (h + 1))) empty ≠ empty
              rw [← hpar, getD_set_self _ hparlt]
              exact parentHash_ne_empty root nh
    · refine ⟨f, pos, nh, ?_, rfl, rfl, rfl, rfl, fun q _ => rfl, ?_⟩
      · rw [addRise_succ, if_neg hguard]
      · intro k hk hkr hbk
        exfalso
        have hbt : n.testBit h = true := hbk h (le_refl h) hk
        exact hguard ((shiftRight_and_one n h).mpr hbt)

theorem write_ok {f : Forest} {p : ℕ} {v : Hash} (h : p < f.data.length) :
    f.write p v = .ok { f with data := f.data.set p v } := by
  unfold Forest.write dataWrite
  rw [if_pos h]
  simp only [resBindOk]

/-- Low bits of a number one below a multiple of `2^r` are all set. -/
theorem testBit_of_mod_ones {n r b : ℕ} (hbr : b < r)
    (hmod : n % 2 ^ r = 2 ^ r - 1) : n.testBit b = true := by
  have h1 : (n % 2 ^ r).testBit b = n.testBit b := by
    rw [Nat.testBit_mod_two_pow]
    simp [hbr]
  rw [← h1, hmod, Nat.testBit_two_pow_sub_one]
  simp [hbr]

/-- Everything `addOne` does on success: the new leaf lands at position
`numLeaves`, the MiniHash is mapped there, other leaf slots are untouched,
the count goes up by one, and (for a non-EMPTY leaf) fullness of the data
extends to the new count.  No validation of the leaf hash happens. -/
theorem addOne_spec {f : Forest} {leaf : Leaf}
    (hlen : f.data.length = 2 ^ (f.rows + 1) - 1)
    (hrows : f.rows ≤ 62)
    (hroom : f.numLeaves < 2 ^ f.rows) :
    ∃ g, f.addOne leaf = .ok g ∧ g.rows = f.rows ∧
      g.data.length = f.data.length ∧ g.numLeaves = f.numLeaves + 1 ∧
      g.positionMap = pmInsert f.positionMap leaf.mini f.numLeaves ∧
      g.data.getD f.numLeaves empty = leaf.hash ∧
      (∀ q, q < 2 ^ f.rows → q ≠ f.numLeaves →
        g.data.getD q empty = f.data.getD q empty) ∧
      (leaf.hash ≠ empty → FullNE f.data f.rows f.numLeaves →
        FullNE g.data f.rows (f.numLeaves + 1)) := by
  have hp2 : (2 : ℕ) ^ (f.rows + 1) = 2 * 2 ^ f.rows := by rw [← pow_succ']
  have hp1 : (1 : ℕ) ≤ 2 ^ f.rows := Nat.one_le_two_pow
  have hnlt : f.numLeaves < f.data.length := by omega
  have hrl : ∀ h', (∀ b, b ≤ h' → f.numLeaves.testBit b = true) →
      h' + 1 ≤ (getRootsForwards f.numLeaves f.rows).1.length := by
    intro h' hb
    have hh'r : h' ≤ f.rows := by
      by_contra hcon
      have hmod := bitsLow_mod f.rows (fun b hbb => hb b (by omega))
      have hle := Nat.mod_le f.numLeaves (2 ^ (f.rows + 1))
      omega
    exact getRootsForwards_length_ge hh'r hb
  have hmem1 : ∀ q ∈ (getRootsForwards f.numLeaves f.rows).1,
      q < (f.data.set f.numLeaves leaf.hash).length := by
    intro q hq
    obtain ⟨b, j, hb, hqe, hspan, hjlt⟩ :=
      getRootsForwards_mem (le_of_lt hroom) hq
    rw [List.length_set, hlen, hqe]
    exact posAt_le_max hb hjlt
  have hw1 : Forest.write
      { f with positionMap := pmInsert f.positionMap leaf.mini f.numLeaves }
      f.numLeaves leaf.hash =
      .ok { f with
            data := f.data.set f.numLeaves leaf.hash
            positionMap := pmInsert f.positionMap leaf.mini f.numLeaves } :=
    write_ok hnlt
  obtain ⟨g2, pos', nh', hrec, hgr, hgl, hgn, hgm, hA, hB⟩ :=
    @addRise_spec f.numLeaves (getRootsForwards f.numLeaves f.rows).1 hrl
      65
      { f with
        data := f.data.set f.numLeaves leaf.hash
        positionMap := pmInsert f.positionMap leaf.mini f.numLeaves }
      0 f.numLeaves leaf.hash
      (by
        show (f.data.set f.numLeaves leaf.hash).length = 2 ^ (f.rows + 1) - 1
        rw [List.length_set]
        exact hlen)
      hmem1
      hroom
      (fun b hb => absurd hb (Nat.not_lt_zero b))
      (by
        show f.numLeaves = posAt f.rows 0 (f.numLeaves / 2 ^ 0)
        rw [posAt_zero, pow_zero, Nat.div_one])
      (by
        show f.rows + 1 - 0 ≤ 65
        omega)
  refine ⟨{ g2 with numLeaves := g2.numLeaves + 1 },
    ?_, ?_, ?_, ?_, ?_, ?_, ?_, ?_⟩
  · unfold Forest.addOne
    simp only [resBindOk]
    rw [hw1]
    simp only [resBindOk]
    rw [hrec]
    simp only [resBindOk]
  · show g2.rows = f.rows
    exact hgr
  · show g2.data.length = f.data.length
    rw [hgl]
    show (f.data.set f.numLeaves leaf.hash).length = f.data.length
    rw [List.length_set]
  · show g2.numLeaves + 1 = f.numLeaves + 1
    rw [hgn]
  · show g2.positionMap = pmInsert f.positionMap leaf.mini f.numLeaves
    rw [hgm]
  · show g2.data.getD f.numLeaves empty = leaf.hash
    have hside : ∀ k, 0 < k → k ≤ f.rows →
        (∀ b, 0 ≤ b → b < k → f.numLeaves.testBit b = true) →
        f.numLeaves ≠ posAt f.rows k (f.numLeaves / 2 ^ k) := by
      intro k hk1 hk2 hkb
      have hge := @posAt_ge f.rows k (f.numLeaves / 2 ^ k) hk1 hk2
      omega
    rw [hA f.numLeaves hside]
    show (f.data.set f.numLeaves leaf.hash).getD f.numLeaves empty = leaf.hash
    exact getD_set_self _ hnlt
  · intro q hq hqn
    show g2.data.getD q empty = f.data.getD q empty
    have hside : ∀ k, 0 < k → k ≤ f.rows →
        (∀ b, 0 ≤ b → b < k → f.numLeaves.testBit b = true) →
        q ≠ posAt f.rows k (f.numLeaves / 2 ^ k) := by
      intro k hk1 hk2 hkb
      have hge := @posAt_ge f.rows k (f.numLeaves / 2 ^ k) hk1 hk2
      omega
    rw [hA q hside]
    show (f.data.set f.numLeaves leaf.hash).getD q empty = f.data.getD q empty
    exact getD_set_ne _ (fun he => hqn he.symm)
  · intro hne hF
    intro r j hr hj
    show g2.data.getD (posAt f.rows r j) empty ≠ empty
    rcases Nat.lt_or_ge ((j + 1) * 2 ^ r) (f.numLeaves + 1) with hold | hnew
    · have hold' : (j + 1) * 2 ^ r ≤ f.numLeaves := by omega
      by_cases hch : ∃ k, 0 < k ∧ k ≤ f.rows ∧
          (∀ b, b < k → f.numLeaves.testBit b = true) ∧
          posAt f.rows r j = posAt f.rows k (f.numLeaves / 2 ^ k)
      · obtain ⟨k, hk1, hk2, hkb, hke⟩ := hch
        rw [hke]
        exact hB k hk1 hk2 (fun b hb0 hbb => hkb b hbb)
      · have hside : ∀ k, 0 < k → k ≤ f.rows →
            (∀ b, 0 ≤ b → b < k → f.numLeaves.testBit b = true) →
            posAt f.rows r j ≠ posAt f.rows k (f.numLeaves / 2 ^ k) := by
          intro k hk1 hk2 hkb heq'
          exact hch ⟨k, hk1, hk2, fun b hbb => hkb b (by omega) hbb, heq'⟩
        rw [hA (posAt f.rows r j) hside]
        have hqne : posAt f.rows r j ≠ f.numLeaves := by
          rcases Nat.eq_zero_or_pos r with hr0 | hr0
          · subst hr0
            rw [posAt_zero]
            have hexp : (j + 1) * 2 ^ 0 = j + 1 := by norm_num
            omega
          · have hge := @posAt_ge f.rows r j hr0 hr
            omega
        show (f.data.set f.numLeaves leaf.hash).getD (posAt f.rows r j) empty
            ≠ empty
        rw [getD_set_ne _ (fun he => hqne he.symm)]
        exact hF r j hr hold'
    · have hbnd : (j + 1) * 2 ^ r = f.numLeaves + 1 := by omega
      have hexp : (j + 1) * 2 ^ r = j * 2 ^ r + 2 ^ r := by ring
      have hpow : (0 : ℕ) < 2 ^ r := Nat.two_pow_pos r
      have hneq : f.numLeaves = j * 2 ^ r + (2 ^ r - 1) := by omega
      rcases Nat.eq_zero_or_pos r with hr0 | hr0
      · subst hr0
        rw [posAt_zero]
        have h20 : (j + 1) * 2 ^ 0 = j + 1 := by norm_num
        have hjn : j = f.numLeaves := by omega
        rw [hjn]
        have hside : ∀ k, 0 < k → k ≤ f.rows →
            (∀ b, 0 ≤ b → b < k → f.numLeaves.testBit b = true) →
            f.numLeaves ≠ posAt f.rows k (f.numLeaves / 2 ^ k) := by
          intro k hk1 hk2 hkb
          have hge := @posAt_ge f.rows k (f.numLeaves / 2 ^ k) hk1 hk2
          omega
        rw [hA f.numLeaves hside]
        show (f.data.set f.numLeaves leaf.hash).getD f.numLeaves empty ≠ empty
        rw [getD_set_self _ hnlt]
        exact hne
      · have hjdiv : f.numLeaves / 2 ^ r = j := by
          rw [hneq, mul_comm j (2 ^ r), Nat.mul_add_div hpow,
            Nat.div_eq_of_lt (by omega : 2 ^ r - 1 < 2 ^ r)]
          omega
        have hmod : f.numLeaves % 2 ^ r = 2 ^ r - 1 := by
          rw [hneq, mul_comm j (2 ^ r), Nat.mul_add_mod]
          exact Nat.mod_eq_of_lt (by omega)
        have hres := hB r hr0 hr
          (fun b hb0 hbb => testBit_of_mod_ones hbb hmod)
        rw [hjdiv] at hres
        exact hres

/-- The position map accumulated by appending `adds` starting at count
`n` (each leaf's MiniHash mapped to its landing position). -/
def addsPosMap (pm : PosMap) (n : ℕ) : List Leaf → PosMap
  | [] => pm
  | a :: rest => addsPosMap (pmInsert pm a.mini n) (n + 1) rest

/-- `addv2` under capacity: appends every leaf in order (hashes land at
positions `numLeaves .. numLeaves + len - 1`, old leaf slots untouched),
maps every MiniHash, and preserves fullness.  No leaf validation. -/
theorem addv2_spec : ∀ (adds : List Leaf) (f : Forest),
    f.data.length = 2 ^ (f.rows + 1) - 1 →
    f.rows ≤ 62 →
    f.numLeaves + adds.length ≤ 2 ^ f.rows →
    ∃ g, f.addv2 adds = .ok g ∧ g.rows = f.rows ∧
      g.data.length = f.data.length ∧
      g.numLeaves = f.numLeaves + adds.length ∧
      g.positionMap = addsPosMap f.positionMap f.numLeaves adds ∧
      (∀ q, q < f.numLeaves → g.data.getD q empty = f.data.getD q empty) ∧
      (∀ i, ∀ hi : i < adds.length,
        g.data.getD (f.numLeaves + i) empty = (adds.get ⟨i, hi⟩).hash) ∧
      ((∀ a ∈ adds, a.hash ≠ empty) → FullNE f.data f.rows f.numLeaves →
        FullNE g.data f.rows (f.numLeaves + adds.length)) := by
  intro adds
  induction adds with
  | nil =>
    intro f hlen hrows hcap
    refine ⟨f, rfl, rfl, rfl, rfl, rfl, fun q _ => rfl, ?_, ?_⟩
    · intro i hi
      exact absurd hi (Nat.not_lt_zero i)
    · intro _ hF
      exact hF
  | cons a rest ih =>
    intro f hlen hrows hcap
    have hc : f.numLeaves + (rest.length + 1) ≤ 2 ^ f.rows := by
      simpa using hcap
    have hroom : f.numLeaves < 2 ^ f.rows := by omega
    obtain ⟨g1, h1, h1r, h1l, h1n, h1m, h1leaf, h1pres, h1full⟩ :=
      @addOne_spec f a hlen hrows hroom
    obtain ⟨g, hg, hgr, hgl, hgn, hgm, hgpres, hgleaf, hgfull⟩ :=
      ih g1
        (by rw [h1l, h1r]; exact hlen)
        (by rw [h1r]; exact hrows)
        (by rw [h1n, h1r]; omega)
    refine ⟨g, ?_, hgr.trans h1r, hgl.trans h1l, ?_, ?_, ?_, ?_, ?_⟩
    · show List.foldlM Forest.addOne f (a :: rest) = .ok g
      rw [List.foldlM_cons, h1]
      simp only [resBindOk]
      exact hg
    · rw [hgn, h1n]
      simp only [List.length_cons]
      omega
    · show g.positionMap =
        addsPosMap (pmInsert f.positionMap a.mini f.numLeaves)
          (f.numLeaves + 1) rest
      rw [hgm, h1m, h1n]
    · intro q hq
      rw [hgpres q (by rw [h1n]; omega)]
      exact h1pres q (by omega) (by omega)
    · intro i hi
      cases i with
      | zero =>
        show g.data.getD (f.numLeaves + 0) empty = a.hash
        rw [Nat.add_zero, hgpres f.numLeaves (by rw [h1n]; omega)]
        exact h1leaf
      | succ i =>
        have hi' : i < rest.length := by
          simp only [List.length_cons] at hi
          omega
        have hres := hgleaf i hi'
        rw [h1n] at hres
        show g.data.getD (f.numLeaves + (i + 1)) empty =
          (rest.get ⟨i, hi'⟩).hash
        rw [show f.numLeaves + (i + 1) = f.numLeaves + 1 + i by omega]
        exact hres
    · intro hall hF
      have hF1 := h1full (hall a (List.mem_cons_self a rest)) hF
      have hcount : f.numLeaves + (a :: rest).length =
          g1.numLeaves + rest.length := by
        simp only [List.length_cons]
        omega
      rw [hcount, ← h1r]
      exact hgfull (fun x hx => hall x (List.mem_cons_of_mem a hx))
        (by rw [h1r, h1n]; exact hF1)

/-! ## What reMap does -/

theorem dataRead_eq {d : List Hash} {p : ℕ} (h : p < d.length) :
    dataRead d p = .ok (d.getD p empty) := by
  unfold dataRead
  rw [List.get?_eq_get h]
  show (Except.ok (d.get ⟨p, h⟩) : Res Hash) = .ok (d.getD p empty)
  congr 1
  rw [List.getD_eq_getElem?_getD, ← List.get?_eq_getElem?,
    List.get?_eq_get h]
  rfl

/-- One row-relocation fold of `reMap`: copy the non-empty sources
`pos/2 + x` to `pos + x` for `x < n`, touching nothing else. -/
theorem reMapCopyRow {pos : ℕ} : ∀ (n : ℕ) (d : List Hash),
    pos / 2 + n ≤ pos → pos + n ≤ d.length →
    ∃ dd, (List.range n).foldlM
        (fun dd x => do
          let v ← dataRead dd (pos / 2 + x)
          if v ≠ empty then dataWrite dd (pos + x) v else .ok dd) d =
      .ok dd ∧
      dd.length = d.length ∧
      (∀ q, (∀ x, x < n → q ≠ pos + x) → dd.getD q empty = d.getD q empty) ∧
      (∀ x, x < n → d.getD (pos / 2 + x) empty ≠ empty →
        dd.getD (pos + x) empty = d.getD (pos / 2 + x) empty) := by
  intro n
  induction n with
  | zero =>
    intro d hsrc htgt
    exact ⟨d, rfl, rfl, fun q _ => rfl, fun x hx => absurd hx
      (Nat.not_lt_zero x)⟩
  | succ n ih =>
    intro d hsrc htgt
    obtain ⟨dd, hfold, hlen', hunch, hcopy⟩ := ih d (by omega) (by omega)
    have hvlt : pos / 2 + n < dd.length := by omega
    have hwlt : pos + n < dd.length := by omega
    have hv : dataRead dd (pos / 2 + n) = .ok (dd.getD (pos / 2 + n) empty) :=
      dataRead_eq hvlt
    have hsv : dd.getD (pos / 2 + n) empty = d.getD (pos / 2 + n) empty :=
      hunch (pos / 2 + n) (fun x hx => by omega)
    by_cases hne : d.getD (pos / 2 + n) empty = empty
    · -- empty source: no write
      refine ⟨dd, ?_, hlen', ?_, ?_⟩
      · rw [List.range_succ, List.foldlM_append, hfold]
        simp only [resBindOk, List.foldlM_cons, List.foldlM_nil, hv,
          hsv, hne]
        simp
      · intro q hq
        exact hunch q (fun x hx => hq x (by omega))
      · intro x hx hxe
        rcases Nat.lt_or_ge x n with hlt | hge
        · exact hcopy x hlt hxe
        · have hxn : x = n := by omega
          rw [hxn] at hxe
          exact absurd hne hxe
    · -- non-empty source: written at pos + n
      refine ⟨dd.set (pos + n) (d.getD (pos / 2 + n) empty), ?_, ?_, ?_, ?_⟩
      · rw [List.range_succ, List.foldlM_append, hfold]
        simp only [resBindOk, List.foldlM_cons, List.foldlM_nil, hv, hsv]
        rw [if_pos (by simpa using hne)]
        unfold dataWrite
        rw [if_pos hwlt]
        simp
      · rw [List.length_set]
        exact hlen'
      · intro q hq
        rw [getD_set_ne _ (fun he => hq n (by omega) he.symm),
          hunch q (fun x hx => hq x (by omega))]
      · intro x hx hxe
        rcases Nat.lt_or_ge x n with hlt | hge
        · rw [getD_set_ne _ (by omega)]
          exact hcopy x hlt hxe
        · have hxn : x = n := by omega
          subst hxn
          exact getD_set_self _ hwlt

/-- The right-half zeroing fold of `reMap` leaves everything outside
`[base, base + n)` alone. -/
theorem zeroRow_spec : ∀ (n : ℕ) (base : ℕ) (d : List Hash),
    base + n ≤ d.length →
    ∃ d', (List.range n).foldlM
        (fun dd i => dataWrite dd (base + i) empty) d = .ok d' ∧
      d'.length = d.length ∧
      (∀ q, (q < base ∨ base + n ≤ q) → d'.getD q empty = d.getD q empty) := by
  intro n
  induction n with
  | zero =>
    intro base d hb
    exact ⟨d, rfl, rfl, fun q _ => rfl⟩
  | succ n ih =>
    intro base d hb
    obtain ⟨d1, hfold, hlen', hunch⟩ := ih base d (by omega)
    have hwlt : base + n < d1.length := by omega
    refine ⟨d1.set (base + n) empty, ?_, ?_, ?_⟩
    · rw [List.range_succ, List.foldlM_append, hfold]
      simp only [resBindOk, List.foldlM_cons, List.foldlM_nil]
      unfold dataWrite
      rw [if_pos hwlt]
      simp
    · rw [List.length_set]
      exact hlen'
    · intro q hq
      rw [getD_set_ne _ (by omega), hunch q (by omega)]

/-- Unfolding equation for `reMapCopy` at positive fuel. -/
theorem reMapCopy_succ (d : List Hash) (hrem pos reach : ℕ) :
    reMapCopy d (hrem + 1) pos reach = (do
      let d' ← (List.range (reach / 2)).foldlM
        (fun dd x => do
          let v ← dataRead dd (pos / 2 + x)
          if v ≠ empty then dataWrite dd (pos + x) v else .ok dd) d
      reMapCopy d' hrem (pos + reach) (reach / 2)) := rfl

/-- The full relocation pass of `reMap`: starting at row `h` with the
matching `pos`/`reach`, it succeeds, leaves everything below `pos` alone,
and moves each non-empty node of old row `h' ≥ h` from its old position
`2^R - 2^(R-h') + x` to its new position `2^(R+1) - 2^(R+1-h') + x`
(`R` is the destination row count). -/
theorem reMapCopy_spec {R : ℕ} : ∀ (hrem h pos reach : ℕ) (d : List Hash),
    1 ≤ h → h + hrem = R →
    pos = 2 ^ (R + 1) - 2 ^ (R + 1 - h) → reach = 2 ^ (R - h) →
    d.length = 2 ^ (R + 1) - 1 →
    ∃ d', reMapCopy d hrem pos reach = .ok d' ∧
      d'.length = d.length ∧
      (∀ q, q < pos → d'.getD q empty = d.getD q empty) ∧
      (∀ h' x, h ≤ h' → h' < R → x < 2 ^ (R - 1 - h') →
        d.getD (2 ^ R - 2 ^ (R - h') + x) empty ≠ empty →
        d'.getD (2 ^ (R + 1) - 2 ^ (R + 1 - h') + x) empty =
          d.getD (2 ^ R - 2 ^ (R - h') + x) empty) := by
  intro hrem
  induction hrem with
  | zero =>
    intro h pos reach d hh hhr hpos hreach hlen
    refine ⟨d, rfl, rfl, fun q _ => rfl, ?_⟩
    intro h' x hhh' hh'R hx hne
    exact absurd hh'R (by omega)
  | succ hrem ih =>
    intro h pos reach d hh hhr hpos hreach hlen
    have e1 : R - h = (R - 1 - h) + 1 := by omega
    have hA1 : (2 : ℕ) ^ (R - h) = 2 * 2 ^ (R - 1 - h) := by
      rw [e1, pow_succ']
    have e2 : R + 1 - h = (R - h) + 1 := by omega
    have hA2 : (2 : ℕ) ^ (R + 1 - h) = 2 * 2 ^ (R - h) := by
      rw [e2, pow_succ']
    have hA3 : (2 : ℕ) ^ (R + 1) = 2 * 2 ^ R := by rw [pow_succ']
    have hA4 : (2 : ℕ) ^ (R + 1 - h) ≤ 2 ^ R :=
      Nat.pow_le_pow_right (by norm_num) (by omega)
    have hA5 : (1 : ℕ) ≤ 2 ^ (R - 1 - h) := Nat.one_le_two_pow
    have hrl : reach / 2 = 2 ^ (R - 1 - h) := by omega
    obtain ⟨dd, hfold, hdlen, hunch, hcopy⟩ :=
      @reMapCopyRow pos (reach / 2) d (by omega) (by omega)
    obtain ⟨d', hrec, hrlen, hrunch, hrcopy⟩ :=
      ih (h + 1) (pos + reach) (reach / 2) dd (by omega) (by omega)
        (by
          have e3 : R + 1 - (h + 1) = R - h := by omega
          rw [e3]
          omega)
        (by
          have e4 : R - (h + 1) = R - 1 - h := by omega
          rw [e4]
          omega)
        (by omega)
    refine ⟨d', ?_, by omega, ?_, ?_⟩
    · rw [reMapCopy_succ, hfold]
      simp only [resBindOk]
      exact hrec
    · intro q hq
      rw [hrunch q (by omega), hunch q (fun x hx => by omega)]
    · intro h' x hhh' hh'R hx hne
      have hB1 : (2 : ℕ) ^ (R - h') ≤ 2 ^ R :=
        Nat.pow_le_pow_right (by norm_num) (by omega)
      have hB2 : (1 : ℕ) ≤ 2 ^ (R - h') := Nat.one_le_two_pow
      have hB3 : (2 : ℕ) ^ (R - 1 - h') ≤ 2 ^ (R - h') :=
        Nat.pow_le_pow_right (by norm_num) (by omega)
      have hsrclt : 2 ^ R - 2 ^ (R - h') + x < pos := by omega
      rcases Nat.lt_or_ge h h' with hgt | hle
      · have hsne : dd.getD (2 ^ R - 2 ^ (R - h') + x) empty ≠ empty := by
          rw [hunch _ (fun x' hx' => by omega)]
          exact hne
        have hstep := hrcopy h' x (by omega) hh'R hx hsne
        rw [hstep, hunch _ (fun x' hx' => by omega)]
      · have hh'h : h' = h := by omega
        subst hh'h
        have hps : pos / 2 = 2 ^ R - 2 ^ (R - h') := by omega
        have hcv := hcopy x (by omega) (by rw [hps]; exact hne)
        rw [hps] at hcv
        have htf : 2 ^ (R + 1) - 2 ^ (R + 1 - h') + x = pos + x := by omega
        rw [htf, hrunch (pos + x) (by omega), hcv]

theorem getD_append_left {l l' : List Hash} {n : ℕ} (h : n < l.length) :
    (l ++ l').getD n empty = l.getD n empty := by
  rw [List.getD_eq_getElem?_getD, List.getElem?_append_left h,
    ← List.getD_eq_getElem?_getD]

/-- `reMap` to one more row succeeds (for backends below the `2^63` slice
cap), keeps the counters and the map, and relocates the data so that
fullness below `m` carries over to the grown tree. -/
theorem reMap_spec {f : Forest} {m : ℕ}
    (hlen : f.data.length = 2 ^ (f.rows + 1) - 1)
    (hrows : f.rows ≤ 61)
    (hm : m ≤ 2 ^ f.rows)
    (hF : FullNE f.data f.rows m) :
    ∃ g, f.reMap (f.rows + 1) = .ok g ∧ g.rows = f.rows + 1 ∧
      g.data.length = 2 ^ (f.rows + 1 + 1) - 1 ∧
      g.numLeaves = f.numLeaves ∧ g.positionMap = f.positionMap ∧
      FullNE g.data (f.rows + 1) m := by
  have hp1 : (1 : ℕ) ≤ 2 ^ f.rows := Nat.one_le_two_pow
  have hpR : (2 : ℕ) ^ (f.rows + 1) = 2 * 2 ^ f.rows := by rw [pow_succ']
  have hpR1 : (2 : ℕ) ^ (f.rows + 1 + 1) = 2 * 2 ^ (f.rows + 1) := by
    rw [pow_succ']
  have hs0 : (1 : ℕ) <<< f.rows = 2 ^ f.rows := one_shiftLeft _
  have hs1 : (1 : ℕ) <<< (f.rows + 1) = 2 ^ (f.rows + 1) := one_shiftLeft _
  have hs2 : (2 : ℕ) <<< (f.rows + 1) = 2 ^ (f.rows + 1 + 1) :=
    two_shiftLeft _
  have hbound : (2 : ℕ) ^ (f.rows + 1 + 1) ≤ 2 ^ 63 :=
    Nat.pow_le_pow_right (by norm_num) (by omega)
  have hresize : dataResize f.data ((2 <<< (f.rows + 1)) - 1) =
      .ok (f.data ++
        List.replicate ((2 <<< (f.rows + 1)) - 1 - f.data.length) empty) := by
    unfold dataResize
    rw [if_neg (by rw [hs2]; omega)]
  have hd0len : (f.data ++
      List.replicate ((2 <<< (f.rows + 1)) - 1 - f.data.length) empty).length
      = 2 ^ (f.rows + 1 + 1) - 1 := by
    rw [List.length_append, List.length_replicate, hs2]
    omega
  obtain ⟨d1, hcopyEq, hd1len, hunch1, hcopy1⟩ :=
    @reMapCopy_spec (f.rows + 1) f.rows 1 (1 <<< (f.rows + 1))
      ((1 <<< (f.rows + 1)) / 2)
      (f.data ++
        List.replicate ((2 <<< (f.rows + 1)) - 1 - f.data.length) empty)
      (le_refl 1) (by omega)
      (by
        rw [hs1, show f.rows + 1 + 1 - 1 = f.rows + 1 from by omega]
        omega)
      (by
        rw [hs1, show f.rows + 1 - 1 = f.rows from by omega]
        omega)
      hd0len
  obtain ⟨d2, hzeroEq, hzlen, hzunch⟩ :=
    zeroRow_spec ((1 <<< (f.rows + 1)) - (1 <<< f.rows)) (1 <<< f.rows) d1
      (by rw [hs0, hs1, hd1len, hd0len]; omega)
  refine ⟨{ f with data := d2, rows := f.rows + 1 }, ?_, rfl, ?_, rfl, rfl,
    ?_⟩
  · unfold Forest.reMap
    rw [if_neg (by omega), if_neg (by omega), if_neg (by omega), hresize]
    simp only [resBindOk]
    rw [show f.rows + 1 - 1 = f.rows from rfl, hcopyEq]
    simp only [resBindOk]
    rw [hzeroEq]
    simp only [resBindOk]
  · show d2.length = 2 ^ (f.rows + 1 + 1) - 1
    rw [hzlen, hd1len, hd0len]
  · intro r j hr hj
    show d2.getD (posAt (f.rows + 1) r j) empty ≠ empty
    have hrle : r ≤ f.rows := by
      by_contra hcon
      have hreq : r = f.rows + 1 := by omega
      subst hreq
      have h1 : 2 ^ (f.rows + 1) ≤ (j + 1) * 2 ^ (f.rows + 1) :=
        Nat.le_mul_of_pos_left _ (Nat.succ_pos j)
      omega
    have hjlt : j < 2 ^ (f.rows - r) := full_index_lt hm hrle hj
    rcases Nat.eq_zero_or_pos r with hr0 | hr0
    · subst hr0
      have hj0 : j < 2 ^ f.rows := by
        have he : (j + 1) * 2 ^ 0 = j + 1 := by norm_num
        omega
      rw [posAt_zero,
        hzunch j (Or.inl (by rw [hs0]; omega)),
        hunch1 j (by rw [hs1]; omega),
        getD_append_left (by omega)]
      have hf0 := hF 0 j (Nat.zero_le _) hj
      rw [posAt_zero] at hf0
      exact hf0
    · have hge := @posAt_ge (f.rows + 1) r j hr0 (by omega)
      have hposnew : posAt (f.rows + 1) r j =
          2 ^ (f.rows + 1 + 1) - 2 ^ (f.rows + 1 + 1 - r) + j := rfl
      have hposold : posAt f.rows r j =
          2 ^ (f.rows + 1) - 2 ^ (f.rows + 1 - r) + j := rfl
      have hb := posAt_le_max hrle hjlt
      rw [hposold] at hb
      have hsrcne : (f.data ++
          List.replicate ((2 <<< (f.rows + 1)) - 1 - f.data.length)
            empty).getD (2 ^ (f.rows + 1) - 2 ^ (f.rows + 1 - r) + j) empty
          ≠ empty := by
        rw [getD_append_left (by omega), ← hposold]
        exact hF r j hrle hj
      have hcv := hcopy1 r j hr0 (by omega)
        (by rw [show f.rows + 1 - 1 - r = f.rows - r from by omega]
            exact hjlt)
        hsrcne
      rw [hposnew] at hge
      rw [hposnew,
        hzunch _ (Or.inr (by rw [hs0, hs1]; omega)),
        hcv,
        getD_append_left (by omega), ← hposold]
      exact hF r j hrle hj

/-! ## Forward bookkeeping lemmas for Modify -/

theorem insSorted_length (x : ℕ) : ∀ (l : List ℕ),
    (insSorted x l).length = l.length + 1 := by
  intro l
  induction l with
  | nil => rfl
  | cons y ys ih =>
    unfold insSorted
    split
    · rfl
    · simp only [List.length_cons, ih]

theorem sortNat_length (l : List ℕ) : (sortNat l).length = l.length := by
  unfold sortNat
  induction l with
  | nil => rfl
  | cons x xs ih =>
    simp only [List.foldr_cons, insSorted_length, ih, List.length_cons]

theorem write_dims {f g : Forest} {p : ℕ} {v : Hash}
    (h : f.write p v = .ok g) :
    p < f.data.length ∧ g.numLeaves = f.numLeaves ∧ g.rows = f.rows ∧
      g.data.length = f.data.length ∧ g.positionMap = f.positionMap := by
  unfold Forest.write at h
  cases hw : dataWrite f.data p v with
  | error e => rw [hw] at h; exact nomatch h
  | ok d =>
    rw [hw] at h
    simp only [resBindOk] at h
    obtain ⟨hp, hd⟩ := dataWrite_ok hw
    rw [← Except.ok.inj h]
    exact ⟨hp, rfl, rfl, by rw [hd, List.length_set], rfl⟩

theorem addRise_dims {rootList : List ℕ} {numLeaves : ℕ} :
    ∀ (fuel : ℕ) (f : Forest) (h pos : ℕ) (nh : Hash) (g : Forest)
      (pos' : ℕ) (nh' : Hash),
    f.addRise rootList numLeaves h pos nh fuel = .ok (g, pos', nh') →
    g.numLeaves = f.numLeaves ∧ g.rows = f.rows ∧
      g.data.length = f.data.length := by
  intro fuel
  induction fuel with
  | zero =>
    intro f h pos nh g pos' nh' hk
    exact nomatch hk
  | succ fuel ih =>
    intro f h pos nh g pos' nh' hk
    rw [addRise_succ] at hk
    split at hk
    · split at hk
      · exact nomatch hk
      · split at hk
        · exact nomatch hk
        next rp hget =>
          cases hread : f.read rp with
          | error e => rw [hread] at hk; exact nomatch hk
          | ok root =>
            rw [hread] at hk
            simp only [resBindOk] at hk
            cases hwr : f.write (parent pos f.rows) (parentHash root nh) with
            | error e => rw [hwr] at hk; exact nomatch hk
            | ok f1 =>
              rw [hwr] at hk
              simp only [resBindOk] at hk
              obtain ⟨-, w1, w2, w3, -⟩ := write_dims hwr
              obtain ⟨i1, i2, i3⟩ :=
                ih f1 (h + 1) (parent pos f.rows) (parentHash root nh)
                  g pos' nh' hk
              exact ⟨by rw [i1, w1], by rw [i2, w2], by rw [i3, w3]⟩
    · have hout := Except.ok.inj hk
      have hgf : g = f := (congrArg Prod.fst hout).symm
      subst hgf
      exact ⟨rfl, rfl, rfl⟩

theorem addOne_dims {f : Forest} {leaf : Leaf} {g : Forest}
    (h : f.addOne leaf = .ok g) :
    g.numLeaves = f.numLeaves + 1 ∧ g.rows = f.rows ∧
      g.data.length = f.data.length ∧ f.numLeaves < f.data.length := by
  unfold Forest.addOne at h
  simp only [resBindOk] at h
  cases hwr : Forest.write
      { f with positionMap := pmInsert f.positionMap leaf.mini f.numLeaves }
      f.numLeaves leaf.hash with
  | error e => rw [hwr] at h; exact nomatch h
  | ok f1 =>
    rw [hwr] at h
    simp only [resBindOk] at h
    obtain ⟨w0, w1, w2, w3, -⟩ := write_dims hwr
    cases hrise : Forest.addRise f1
        (getRootsForwards f.numLeaves f.rows).1 f1.numLeaves 0
        f.numLeaves leaf.hash 65 with
    | error e => rw [hrise] at h; exact nomatch h
    | ok trip =>
      obtain ⟨f2, pos2, nh2⟩ := trip
      rw [hrise] at h
      simp only [resBindOk] at h
      obtain ⟨i1, i2, i3⟩ := addRise_dims 65 f1 0 f.numLeaves leaf.hash
        f2 pos2 nh2 hrise
      rw [← Except.ok.inj h]
      refine ⟨?_, ?_, ?_, ?_⟩
      · show f2.numLeaves + 1 = f.numLeaves + 1
        rw [i1, w1]
      · show f2.rows = f.rows
        rw [i2, w2]
      · show f2.data.length = f.data.length
        rw [i3, w3]
      · simpa using w0

theorem addv2_ok_bound : ∀ (adds : List Leaf) (f g : Forest),
    f.addv2 adds = .ok g →
    adds = [] ∨ f.numLeaves + adds.length ≤ f.data.length := by
  intro adds
  induction adds with
  | nil =>
    intro f g h
    exact Or.inl rfl
  | cons a rest ih =>
    intro f g h
    refine Or.inr ?_
    unfold Forest.addv2 at h
    rw [List.foldlM_cons] at h
    cases h1 : f.addOne a with
    | error e => rw [h1] at h; exact nomatch h
    | ok f1 =>
      rw [h1] at h
      simp only [resBindOk] at h
      obtain ⟨d1, d2, d3, d4⟩ := addOne_dims h1
      rcases ih f1 g h with hnil | hbound
      · subst hnil
        simp only [List.length_cons, List.length_nil]
        omega
      · simp only [List.length_cons]
        omega

/-- Forward characterization of the remap loop of `Modify`: on success the
counters and map survive, the row count only grows (staying ≤ 62 when it
started there), the backend keeps its perfect-tree length, fullness is
preserved, and the loop guard has become false. -/
theorem growFor_spec {m : ℕ} {delta : ℤ} : ∀ (fuel : ℕ) (f g : Forest),
    f.growFor delta fuel = .ok g →
    f.data.length = 2 ^ (f.rows + 1) - 1 →
    f.rows ≤ 62 →
    m ≤ 2 ^ f.rows →
    FullNE f.data f.rows m →
    g.data.length = 2 ^ (g.rows + 1) - 1 ∧
      g.numLeaves = f.numLeaves ∧ g.positionMap = f.positionMap ∧
      f.rows ≤ g.rows ∧ g.rows ≤ 62 ∧ m ≤ 2 ^ g.rows ∧
      FullNE g.data g.rows m ∧
      (g.numLeaves : ℤ) + delta ≤ (2 : ℤ) ^ g.rows := by
  intro fuel
  induction fuel with
  | zero =>
    intro f g h _ _ _ _
    exact nomatch h
  | succ fuel ih =>
    intro f g h hlen hr62 hm hF
    rw [Forest.growFor] at h
    by_cases hguard : (f.numLeaves : ℤ) + delta > (2 : ℤ) ^ f.rows
    · rw [if_pos hguard] at h
      cases hrm : f.reMap (f.rows + 1) with
      | error e => rw [hrm] at h; exact nomatch h
      | ok f' =>
        rw [hrm] at h
        simp only [resBindOk] at h
        by_cases hr61 : f.rows ≤ 61
        · obtain ⟨g', heq, hgr, hgl, hgn, hgm, hgF⟩ :=
            reMap_spec hlen hr61 hm hF
          rw [heq] at hrm
          have hf' : f' = g' := (Except.ok.inj hrm).symm
          subst hf'
          obtain ⟨l1, n1, m1, r1, r2, mm1, F1, d1⟩ := ih f' g h
            (by rw [hgl, hgr])
            (by omega)
            (by
              rw [hgr]
              exact le_trans hm
                (Nat.pow_le_pow_right (by norm_num) (by omega)))
            (by rw [hgr]; exact hgF)
          exact ⟨l1, n1.trans hgn, m1.trans hgm, by omega, r2, mm1, F1, d1⟩
        · exfalso
          unfold Forest.reMap at hrm
          rw [if_neg (by omega), if_neg (by omega), if_neg (by omega)] at hrm
          have hfail : dataResize f.data ((2 <<< (f.rows + 1)) - 1) =
              .error (.crash "makeslice: len out of range") := by
            unfold dataResize
            rw [if_pos ?_]
            refine Or.inr ?_
            have hs : (2 : ℕ) <<< (f.rows + 1) = 2 ^ (f.rows + 1 + 1) :=
              two_shiftLeft _
            have hbig : (2 : ℕ) ^ 64 ≤ 2 ^ (f.rows + 1 + 1) :=
              Nat.pow_le_pow_right (by norm_num) (by omega)
            have hsplit : (2 : ℕ) ^ 64 = 2 * 2 ^ 63 := by rw [pow_succ']
            omega
          rw [hfail] at hrm
          simp only [resBindError] at hrm
          exact nomatch hrm
    · rw [if_neg hguard] at h
      have hg : g = f := (Except.ok.inj h).symm
      subst hg
      exact ⟨hlen, rfl, rfl, le_refl _, hr62, hm, hF, not_lt.mp hguard⟩

/-! ## The sanity invariant across Modify -/

/-- The engine invariant behind `sanity`: perfect-tree backend length, the
row cap implied by the `2^63` slice limit, the leaf count under capacity,
and fullness of every subtree spanned by the first `numLeaves` leaves. -/
def ForestInv (f : Forest) : Prop :=
  f.data.length = 2 ^ (f.rows + 1) - 1 ∧ f.rows ≤ 62 ∧
    f.numLeaves ≤ 2 ^ f.rows ∧ FullNE f.data f.rows f.numLeaves

theorem forestInv_NewForest : ForestInv NewForest := by
  refine ⟨rfl, by decide, by decide, ?_⟩
  intro r j hr hj
  exfalso
  have h0 : NewForest.numLeaves = 0 := rfl
  rw [h0] at hj
  have h1 : (1 : ℕ) ≤ 2 ^ r := Nat.one_le_two_pow
  have h2 : 1 * 1 ≤ (j + 1) * 2 ^ r := Nat.mul_le_mul (by omega) h1
  omega

theorem forestInv_sanity {f : Forest} (hI : ForestInv f) : f.sanityHolds := by
  obtain ⟨hlen, hr62, hcap, hF⟩ := hI
  constructor
  · rw [one_shiftLeft]
    exact hcap
  · intro r hr
    obtain ⟨b, j, hb, hqe, hspan, hjlt⟩ := getRootsForwards_mem hcap hr
    have hlt : r < f.data.length := by
      rw [hqe, hlen]
      exact posAt_le_max hb hjlt
    have hread : f.read r = .ok (f.data.getD r empty) := dataRead_eq hlt
    rw [hread]
    intro hcon
    have hval : f.data.getD r empty = empty := Except.ok.inj hcon
    have hne := hF b j hb hspan
    rw [← hqe] at hne
    exact hne hval

/-- Every successful `Modify` preserves the invariant.  The wrapping
`numLeaves -= len(dels)` cannot survive to a successful return: a wrapped
count (or a deletion list long enough to wrap) forces `addv2` to write past
the backend, which errors. -/
theorem Modify_preserves_inv {f g : Forest} {adds : List Leaf}
    {dels : List ℕ} {ub : UndoBlock}
    (h : f.Modify adds dels = .ok (g, ub)) (hI : ForestInv f) :
    ForestInv g := by
  obtain ⟨hlen, hr62, hcap, hF⟩ := hI
  unfold Forest.Modify at h
  split at h
  · exact nomatch h
  next hguard1 =>
    split at h
    · exact nomatch h
    next hguard2 =>
      cases hgrow : f.growFor ((adds.length : ℤ) - (dels.length : ℤ)) 64 with
      | error e => rw [hgrow] at h; exact nomatch h
      | ok f1 =>
        rw [hgrow] at h
        simp only [resBindOk] at h
        obtain ⟨l1, n1, m1, r1, r2, mm1, F1, dlt⟩ :=
          growFor_spec 64 f f1 hgrow hlen hr62 hcap hF
        cases hrem : f1.removev5 (sortNat dels) with
        | error e => rw [hrem] at h; exact nomatch h
        | ok f2 =>
          rw [hrem] at h
          simp only [resBindOk] at h
          obtain ⟨F2, hrr, hrl, hrn⟩ := removev5_preserves hrem l1 mm1 F1
          cases hub : f2.buildUndoData adds.length (sortNat dels) with
          | error e => rw [hub] at h; exact nomatch h
          | ok ub' =>
            rw [hub] at h
            simp only [resBindOk] at h
            cases hadd : f2.addv2 adds with
            | error e => rw [hadd] at h; exact nomatch h
            | ok f3 =>
              rw [hadd] at h
              simp only [resBindOk] at h
              have hgf3 : g = f3 :=
                (congrArg Prod.fst (Except.ok.inj h)).symm
              subst hgf3
              -- numeral and cast bookkeeping for the wraparound analysis
              have h64 : (2 : ℕ) ^ 64 = 18446744073709551616 := by norm_num
              rw [n1, sortNat_length, h64] at hrn
              rw [n1] at dlt
              have hcast : ((2 ^ f1.rows : ℕ) : ℤ) = (2 : ℤ) ^ f1.rows := by
                push_cast
                ring
              have hcapbound : (2 : ℕ) ^ f1.rows ≤ 4611686018427387904 :=
                le_trans (Nat.pow_le_pow_right (by norm_num) r2)
                  (by norm_num)
              have hlen2 : f2.data.length = 2 ^ (f2.rows + 1) - 1 := by
                rw [hrl, hrr]
                exact l1
              have hr622 : f2.rows ≤ 62 := by rw [hrr]; exact r2
              have he1 : (2 : ℕ) ^ (f1.rows + 1) = 2 * 2 ^ f1.rows := by
                rw [pow_succ']
              have hrr' : (2 : ℕ) ^ f2.rows = 2 ^ f1.rows := by rw [hrr]
              have hkey : f2.numLeaves ≤ f.numLeaves ∧
                  f2.numLeaves + adds.length ≤ 2 ^ f2.rows := by
                rcases addv2_ok_bound adds f2 g hadd with hnil | hbound
                · subst hnil
                  simp only [List.length_nil] at dlt hguard1 ⊢
                  omega
                · rw [hlen2, hrr] at hbound
                  omega
              obtain ⟨g3, hg3eq, hg3r, hg3l, hg3n, hg3m, hg3pres, hg3leaf,
                hg3full⟩ := addv2_spec adds f2 hlen2 hr622 hkey.2
              have hg3f3 : g3 = g :=
                Except.ok.inj (hg3eq.symm.trans hadd)
              subst hg3f3
              have hnoempty : ∀ a ∈ adds, a.hash ≠ empty := by
                intro a ha hae
                exact hguard2 (List.any_eq_true.mpr ⟨a, ha, by simp [hae]⟩)
              refine ⟨?_, ?_, ?_, ?_⟩
              · rw [hg3l, hg3r]
                exact hlen2
              · rw [hg3r]
                exact hr622
              · rw [hg3n, hg3r]
                exact hkey.2
              · rw [hg3r, hg3n]
                exact hg3full hnoempty (FullNE_mono hkey.1 F2)

/-- The forests reachable from the fresh forest through chains of
successful `Modify` calls. -/
inductive Reachable : Forest → Prop
  | base : Reachable NewForest
  | step {f g : Forest} {adds : List Leaf} {dels : List ℕ} {ub : UndoBlock} :
      Reachable f → f.Modify adds dels = .ok (g, ub) → Reachable g

theorem reachable_inv {f : Forest} (h : Reachable f) : ForestInv f := by
  induction h with
  | base => exact forestInv_NewForest
  | step hr hm ih => exact Modify_preserves_inv hm ih

/-! ## Claim C4 -/

/-- **C4** (confirmed): starting from the empty forest, every forest
reachable through successful `Modify` calls passes `sanity`: `numLeaves ≤
1 <<< rows`, and the backend holds a non-EMPTY hash at every root position
returned by `getRootsForwards (numLeaves, rows)`. -/
theorem modify_preserves_sanity (f : Forest) (h : Reachable f) :
    f.sanityHolds :=
  forestInv_sanity (reachable_inv h)

/-- Witness for C4 at a concrete history: one successful `Modify` adding
the leaf `5` to the fresh forest reaches `⟨1, 0, [5], [(5, 0)]⟩`, which the
theorem certifies sane. -/
theorem modify_preserves_sanity_witness :
    Forest.sanityHolds ⟨1, 0, [5], [(5, 0)]⟩ :=
  modify_preserves_sanity ⟨1, 0, [5], [(5, 0)]⟩
    (Reachable.step Reachable.base
      (show NewForest.Modify [⟨5, false⟩] [] =
        .ok (⟨1, 0, [5], [(5, 0)]⟩, ⟨1, [], []⟩) from by rfl))

/-! ## Claim C9 -/

/-- **C9** counterexample: `addv2` does not succeed on *every* leaf list.
With one leaf already in a 0-row forest (capacity 1), adding one more leaf
crashes: the unvalidated write at position `numLeaves = 1` falls outside
the 1-slot backend. -/
theorem addv2_not_always_ok :
    Forest.addv2 ⟨1, 0, [5], [(5, 0)]⟩ [⟨7, false⟩] =
      .error (.crash "index out of range") := by
  rfl

/-- **C9** (amended): under capacity — `numLeaves + len(adds) ≤ 2^rows`
with the perfect-tree backend — `addv2` performs no validation at all: it
succeeds on any leaf list, EMPTY (all-zero) hashes included, writes each
leaf's hash at the next free position, maps each MiniHash to that position,
and raises `numLeaves` by one per leaf. -/
theorem addv2_accepts_empty_without_validation (adds : List Leaf)
    (f : Forest)
    (hlen : f.data.length = 2 ^ (f.rows + 1) - 1)
    (hrows : f.rows ≤ 62)
    (hcap : f.numLeaves + adds.length ≤ 2 ^ f.rows) :
    ∃ g, f.addv2 adds = .ok g ∧
      g.numLeaves = f.numLeaves + adds.length ∧
      g.positionMap = addsPosMap f.positionMap f.numLeaves adds ∧
      ∀ i, ∀ hi : i < adds.length,
        g.data.getD (f.numLeaves + i) empty = (adds.get ⟨i, hi⟩).hash := by
  obtain ⟨g, h1, h2, h3, h4, h5, h6, h7, h8⟩ :=
    addv2_spec adds f hlen hrows hcap
  exact ⟨g, h1, h4, h5, h7⟩

/-- Witness for the amended C9 at a concrete input: the fresh forest
accepts the EMPTY leaf without any error. -/
theorem addv2_accepts_empty_without_validation_witness :
    ∃ g, NewForest.addv2 [(⟨empty, false⟩ : Leaf)] = .ok g ∧
      g.numLeaves = NewForest.numLeaves +
        [(⟨empty, false⟩ : Leaf)].length ∧
      g.positionMap = addsPosMap NewForest.positionMap NewForest.numLeaves
        [(⟨empty, false⟩ : Leaf)] ∧
      ∀ i, ∀ hi : i < [(⟨empty, false⟩ : Leaf)].length,
        g.data.getD (NewForest.numLeaves + i) empty =
          ([(⟨empty, false⟩ : Leaf)].get ⟨i, hi⟩).hash :=
  addv2_accepts_empty_without_validation [⟨empty, false⟩] NewForest
    (by rfl) (by decide) (by decide)

/-! ## Persistence (src/bridgenode/server.go lines 953-1031, 1044-1081) -/

/-- `WriteMiscData` (lines 1044-1058): the 8 big-endian bytes of
`numLeaves` (a `uint64`) followed by the single byte of `rows` (a
`uint8`). -/
def Forest.writeMiscData (f : Forest) : List ℕ :=
  be64 (f.numLeaves % 2 ^ 64) ++ [f.rows % 2 ^ 8]

/-- `WriteForestToDisk` (lines 1063-1081), RAM mode: the whole backend hash
array is dumped to the forest file from offset 0. -/
def Forest.writeForestToDisk (f : Forest) : List Hash :=
  f.data

/-- The positionMap rebuild loop of `RestoreForest` (lines 1017-1021):
`positionMap[data.read(i).Mini()] = i` for each `i < numLeaves`; the
backend read crashes out of range. -/
def scanPosMap (d : List Hash) (n : ℕ) : Res PosMap :=
  (List.range n).foldlM
    (fun pm i => do
      let h ← dataRead d i
      .ok (pmInsert pm h.mini i)) []

/-- `RestoreForest` (lines 953-1031), RAM mode (`toRAM`, no copy-on-write):
read `numLeaves` (8 big-endian bytes, erring at EOF); read `rows` (1 byte)
— the error of this second `binary.Read` is dropped by the code (its result
is not assigned to `err`, and the following `if err != nil` re-checks the
previous, nil error), so a 8-byte misc file silently leaves `rows = 0` —
resize a fresh RAM backend to `(2 << rows) - 1` hashes, fill it from the
forest file (erring if the file runs short of that many entries), and
rebuild the position map by scanning the first `numLeaves` leaf slots. -/
def RestoreForest (miscFile : List ℕ) (forestFile : List Hash) :
    Res Forest :=
  if miscFile.length < 8 then
    .error (.goError "binary.Read: unexpected EOF")
  else if forestFile.length < (2 <<< miscFile.getD 8 0) - 1 then
    .error (.goError "file.Read: EOF")
  else do
    let pm ← scanPosMap (forestFile.take ((2 <<< miscFile.getD 8 0) - 1))
      (beVal (miscFile.take 8))
    .ok ⟨beVal (miscFile.take 8), miscFile.getD 8 0,
      forestFile.take ((2 <<< miscFile.getD 8 0) - 1), pm⟩

theorem scanPosMap_ok {d : List Hash} : ∀ n, n ≤ d.length →
    ∃ pm, scanPosMap d n = .ok pm := by
  intro n
  induction n with
  | zero =>
    intro _
    exact ⟨[], rfl⟩
  | succ n ih =>
    intro hle
    obtain ⟨pm, hpm⟩ := ih (by omega)
    refine ⟨pmInsert pm ((d.getD n empty).mini) n, ?_⟩
    unfold scanPosMap at hpm ⊢
    rw [List.range_succ, List.foldlM_append, hpm]
    simp only [resBindOk, List.foldlM_cons, List.foldlM_nil,
      dataRead_eq (show n < d.length by omega)]
    rfl

/-! ## Claim C6 -/

/-- **C6** counterexample: after adding leaves `7, 8` and then deleting
position 0 — both successful `Modify` calls — the forest is
`⟨1, 1, [7, 8, 8], [(8, 1)]⟩`: its map still sends the surviving leaf hash
`8` to its original position 1.  The round trip through `WriteMiscData`,
`WriteForestToDisk` and `RestoreForest` restores `numLeaves`, `rows`, the
backend and the roots, but rebuilds the map by scanning leaf slots
`0 ≤ i < numLeaves`, producing `[(7, 0)]` — keyed by the stale hash left in
slot 0 — instead of the original `[(8, 1)]`. -/
theorem restoreForest_posmap_differs :
    NewForest.Modify [⟨7, false⟩, ⟨8, false⟩] [] =
        .ok (⟨2, 1, [7, 8, 129], [(7, 0), (8, 1)]⟩, ⟨2, [], []⟩) ∧
      Forest.Modify ⟨2, 1, [7, 8, 129], [(7, 0), (8, 1)]⟩ [] [0] =
        .ok (⟨1, 1, [7, 8, 8], [(8, 1)]⟩, ⟨0, [0], [7]⟩) ∧
      RestoreForest
          (Forest.writeMiscData ⟨1, 1, [7, 8, 8], [(8, 1)]⟩)
          (Forest.writeForestToDisk ⟨1, 1, [7, 8, 8], [(8, 1)]⟩) =
        .ok ⟨1, 1, [7, 8, 8], [(7, 0)]⟩ ∧
      Forest.getRoots ⟨1, 1, [7, 8, 8], [(7, 0)]⟩ =
        Forest.getRoots ⟨1, 1, [7, 8, 8], [(8, 1)]⟩ ∧
      ([(7, 0)] : PosMap) ≠ [(8, 1)] := by
  refine ⟨by rfl, by rfl, by rfl, by rfl, by decide⟩

/-- **C6** (amended): for a RAM forest whose counters fit their fixed-width
fields and whose backend has the `(2 << rows) - 1` perfect-tree size, the
`WriteMiscData`/`WriteForestToDisk`/`RestoreForest` round trip succeeds and
restores `numLeaves`, `rows`, the backend array and hence the roots exactly
— but the `positionMap` is not restored: it is rebuilt by scanning the
first `numLeaves` leaf slots of the backend, which agrees with the original
map only when that map was in scan form (true for add-only histories,
false after deletions, as the counterexample shows). -/
theorem restoreForest_roundtrip (f : Forest)
    (h64 : f.numLeaves < 2 ^ 64) (h8 : f.rows < 2 ^ 8)
    (hlen : f.data.length = (2 <<< f.rows) - 1)
    (hcap : f.numLeaves ≤ f.data.length) :
    ∃ g, RestoreForest f.writeMiscData f.writeForestToDisk = .ok g ∧
      g.numLeaves = f.numLeaves ∧ g.rows = f.rows ∧ g.data = f.data ∧
      g.getRoots = f.getRoots ∧
      scanPosMap f.data f.numLeaves = .ok g.positionMap := by
  have hm8 : f.numLeaves % 2 ^ 64 = f.numLeaves := Nat.mod_eq_of_lt h64
  have hr8 : f.rows % 2 ^ 8 = f.rows := Nat.mod_eq_of_lt h8
  have hmisc_len : f.writeMiscData.length = 9 := rfl
  have htake : f.writeMiscData.take 8 = be64 f.numLeaves := by
    unfold Forest.writeMiscData
    rw [hm8]
    rfl
  have hgetD : f.writeMiscData.getD 8 0 = f.rows := by
    unfold Forest.writeMiscData
    rw [hr8]
    rfl
  have hval : beVal (f.writeMiscData.take 8) = f.numLeaves := by
    rw [htake, beVal_be64]
    exact hm8
  have hc1 : ¬ (f.writeMiscData.length < 8) := by
    rw [hmisc_len]
    norm_num
  have hc2 : ¬ ((Forest.writeForestToDisk f).length <
      (2 <<< f.writeMiscData.getD 8 0) - 1) := by
    show ¬ (f.data.length < (2 <<< f.writeMiscData.getD 8 0) - 1)
    rw [hgetD, hlen]
    omega
  have htake2 : (Forest.writeForestToDisk f).take
      ((2 <<< f.writeMiscData.getD 8 0) - 1) = f.data := by
    show f.data.take ((2 <<< f.writeMiscData.getD 8 0) - 1) = f.data
    rw [hgetD, ← hlen, List.take_length]
  obtain ⟨pm, hpm⟩ := scanPosMap_ok f.numLeaves hcap
  refine ⟨⟨f.numLeaves, f.rows, f.data, pm⟩, ?_, rfl, rfl, rfl, rfl, ?_⟩
  · unfold RestoreForest
    rw [if_neg hc1, if_neg hc2, htake2, hval, hgetD, hpm]
    simp only [resBindOk]
  · exact hpm

/-- Witness for the amended C6 at a concrete input: the one-leaf forest
`⟨1, 0, [5], [(5, 0)]⟩` (an add-only history) round-trips. -/
theorem restoreForest_roundtrip_witness :
    ∃ g, RestoreForest
        (Forest.writeMiscData ⟨1, 0, [5], [(5, 0)]⟩)
        (Forest.writeForestToDisk ⟨1, 0, [5], [(5, 0)]⟩) = .ok g ∧
      g.numLeaves = (⟨1, 0, [5], [(5, 0)]⟩ : Forest).numLeaves ∧
      g.rows = (⟨1, 0, [5], [(5, 0)]⟩ : Forest).rows ∧
      g.data = (⟨1, 0, [5], [(5, 0)]⟩ : Forest).data ∧
      g.getRoots = Forest.getRoots ⟨1, 0, [5], [(5, 0)]⟩ ∧
      scanPosMap (⟨1, 0, [5], [(5, 0)]⟩ : Forest).data
        (⟨1, 0, [5], [(5, 0)]⟩ : Forest).numLeaves = .ok g.positionMap :=
  restoreForest_roundtrip ⟨1, 0, [5], [(5, 0)]⟩ (by decide) (by decide)
    (by decide) (by decide)

end Utreexo
